import Mathlib

/-!
# Path-algebra and animation-timing engine: a shallow embedding

This file embeds, in Lean, the data model and the routines of
`src/animation.js` that the specification's claims are about: the mobject
tree, the alignment engine (`alignData` and its stages), the partial-path
extractor (`pointwiseBecomePartial`), and the animation-timing functions
(`interpolate`, `getSubAlpha`, the `Write` variant).  Theorems checking the
claims follow the definitions.

Conventions:
* JavaScript numbers are modelled as rationals (`ℚ`); the modelled routines
  only ever use field arithmetic, which is exact on the inputs considered.
* In-place mutation is modelled by functions returning the updated value;
  `clone()` of the source is the identity on values.
* The recursive `alignData` is modelled with an explicit fuel argument
  (`alignDataF`); the wrapper `alignData` instantiates the fuel with a bound
  (tree depth plus two) that is large enough for the recursion to run to
  completion, mirroring the terminating recursion of the source.
* Helpers that live in `utils.js` (which only `src/animation.js` imports
  and which is not part of the sources) are modelled from the spec; each of
  their doc comments starts with `Modelled from the spec:`.
-/

namespace EulerV2

/-- A 2D point / vector (a JS `{x, y}` pair with rational coordinates). -/
structure Vec where
  x : ℚ
  y : ℚ
deriving DecidableEq

/-- The zero vector, the default coordinate value of a fresh `Two.Anchor`. -/
def vzero : Vec := ⟨0, 0⟩

/-- The cubic-curve command tag of a Two.js anchor. -/
def cmdC : String := "C"

/-- One path anchor: a position, left/right cubic control points, and a
command tag (`Two.Anchor`; the `relative` presentation flag of the external
library plays no role in the modelled routines and is omitted). -/
structure Anchor where
  pos : Vec
  ctrlLeft : Vec
  ctrlRight : Vec
  command : String
deriving DecidableEq

/-- The anchor produced by `new Two.Anchor(0, 0, 0, 0, 0, 0, 'C')`. -/
def anchorZero : Anchor := ⟨vzero, vzero, vzero, cmdC⟩

/-- A vector outline: an anchor sequence plus the `closed` flag. -/
structure Path where
  vertices : List Anchor
  closed : Bool
deriving DecidableEq

/-- The style record of `getStyleDict()`. -/
structure Style where
  strokeColor : String
  strokeOpacity : ℚ
  fillColor : String
  fillOpacity : ℚ
  strokeWidth : ℚ
deriving DecidableEq

/-- A partial style dict, as passed to `applyStyle`: absent entries keep
the current value. -/
structure StylePatch where
  strokeColor : Option String := none
  strokeOpacity : Option ℚ := none
  fillColor : Option String := none
  fillOpacity : Option ℚ := none
  strokeWidth : Option ℚ := none
deriving DecidableEq

/-- `applyStyle` on a single node: `Object.assign(this.getStyleDict(), style)`.
The chroma hex composition/decomposition round trip that the source stores the
result in is an external color library; it is modelled as the plain record
update. -/
def Style.applyPatch (s : Style) (p : StylePatch) : Style :=
  ⟨p.strokeColor.getD s.strokeColor, p.strokeOpacity.getD s.strokeOpacity,
   p.fillColor.getD s.fillColor, p.fillOpacity.getD s.fillOpacity,
   p.strokeWidth.getD s.strokeWidth⟩

/-- A flattened cubic segment (start, control, control, end), the "quad"
representation used by subdivision. -/
structure Quad where
  p0 : Vec
  p1 : Vec
  p2 : Vec
  p3 : Vec
deriving DecidableEq

def qzero : Quad := ⟨vzero, vzero, vzero, vzero⟩

def Quad.toList (q : Quad) : List Vec := [q.p0, q.p1, q.p2, q.p3]

/-- Linear interpolation of rationals. -/
def lerpQ (a b t : ℚ) : ℚ := a + (b - a) * t

/-- Linear interpolation of 2D points. -/
def lerpV (p q : Vec) (t : ℚ) : Vec := ⟨lerpQ p.x q.x t, lerpQ p.y q.y t⟩

/-- Modelled from the spec: `utils.splitBezier(segment, t)` — de Casteljau split
of one cubic segment at `t`, returning the left half `[0, t]`; this is the
four-point array that `pointwiseBecomePartial` appends as its final partial
segment. -/
def splitBezier (q : Quad) (t : ℚ) : Quad :=
  let m01 := lerpV q.p0 q.p1 t
  let m12 := lerpV q.p1 q.p2 t
  let m23 := lerpV q.p2 q.p3 t
  let m012 := lerpV m01 m12 t
  let m123 := lerpV m12 m23 t
  let m0123 := lerpV m012 m123 t
  ⟨q.p0, m01, m012, m0123⟩

/-- Modelled from the spec: the right half `[t, 1]` of the de Casteljau split. -/
def splitBezierRight (q : Quad) (t : ℚ) : Quad :=
  let m01 := lerpV q.p0 q.p1 t
  let m12 := lerpV q.p1 q.p2 t
  let m23 := lerpV q.p2 q.p3 t
  let m012 := lerpV m01 m12 t
  let m123 := lerpV m12 m23 t
  let m0123 := lerpV m012 m123 t
  ⟨m0123, m123, m23, q.p3⟩

/-- Modelled from the spec: `utils.partialBezierPoints(curveStart, curveEnd, a, b)`
returns the four coefficient points of the sub-curve `[a, b]` of the cubic
segment between two consecutive anchors: split at `b`, keep the left part,
split that at `a / b`, keep the right part; `b = 0` guards the division with a
degenerate zero-length segment. -/
def partialBezierPoints (a b : Anchor) (t1 t2 : ℚ) : Quad :=
  let q : Quad := ⟨a.pos, a.ctrlRight, b.ctrlLeft, b.pos⟩
  if t2 = 0 then ⟨q.p0, q.p0, q.p0, q.p0⟩
  else splitBezierRight (splitBezier q t2) (t1 / t2)

/-- Modelled from the spec: `utils.integerInterpolate(start, end, t)` maps
`t ∈ [0,1]` to `(index, residue)`: for `0 < t < 1` the index is
`⌊start + t (end − start)⌋` clamped to `[start, end − 1]` and the residue the
fractional remainder of `t (end − start)`; `t ≥ 1` yields `(end − 1, 1)` and
`t ≤ 0` yields `(start, 0)`. -/
def integerInterpolate (s e : ℕ) (t : ℚ) : ℕ × ℚ :=
  if 1 ≤ t then (e - 1, 1)
  else if t ≤ 0 then (s, 0)
  else (min (((s : ℚ) + t * ((e : ℚ) - (s : ℚ))).floor.toNat) (e - 1),
        Int.fract (t * ((e : ℚ) - (s : ℚ))))

/-- Modelled from the spec: `np.linspace(0, 1, m)` of the external numeric
sampling utility — `m` evenly spaced samples from 0 to 1 (`[0]` when `m = 1`). -/
def linspace01 (m : ℕ) : List ℚ :=
  if m ≤ 1 then List.replicate m 0
  else (List.range m).map (fun j => (j : ℚ) / ((m : ℚ) - 1))

/-- `_.chunk(list, 4)`: group a flat coefficient list into 4-point segments.
All lists chunked by the modelled routines have length divisible by four, so
the trailing partial chunk that lodash would keep never arises. -/
def chunk4 : List Vec → List Quad
  | p0 :: p1 :: p2 :: p3 :: rest => ⟨p0, p1, p2, p3⟩ :: chunk4 rest
  | _ => []

/-- The consecutive 4-point segments of an anchor sequence: for each adjacent
anchor pair, (position, right control, next left control, next position). -/
def quadsOfAnchors : List Anchor → List Quad
  | a :: b :: rest => ⟨a.pos, a.ctrlRight, b.ctrlLeft, b.pos⟩ :: quadsOfAnchors (b :: rest)
  | _ => []

/-- Modelled from the spec: `utils.getManimPoints` flattens a path into its
consecutive 4-point cubic segments. The manim/Two.js coordinate transformation
the source applies is external to this core and structure-preserving, so
coordinates are kept as stored. -/
def getManimPoints (p : Path) : List Vec := (quadsOfAnchors p.vertices).flatMap Quad.toList

/-- The position of anchor `j` when rebuilding anchors from a flat manim point
list of length `4K`: chunk `j` writes positions `4j` (its start) and chunk
`j − 1` wrote `4j − 1` (its end); the last write wins, exactly as in the
index-assignment loop of `setAnchorsFromPoints`. -/
def manimPosAt (pts : List Vec) (j : ℕ) : Vec :=
  if j < pts.length / 4 then pts.getD (4 * j) vzero
  else pts.getD (4 * (pts.length / 4) - 1) vzero

/-- The right control of anchor `j` rebuilt from a flat manim point list
(the final anchor's right control is never assigned and stays zero). -/
def manimCtrlRightAt (pts : List Vec) (j : ℕ) : Vec :=
  if j < pts.length / 4 then pts.getD (4 * j + 1) vzero else vzero

/-- The left control of anchor `j` rebuilt from a flat manim point list
(the first anchor's left control is never assigned and stays zero). -/
def manimCtrlLeftAt (pts : List Vec) (j : ℕ) : Vec :=
  if j = 0 then vzero else pts.getD (4 * j - 2) vzero

def manimAnchorAt (pts : List Vec) (cmd : String) (j : ℕ) : Anchor :=
  ⟨manimPosAt pts j, manimCtrlLeftAt pts j, manimCtrlRightAt pts j, cmd⟩

/-- The anchor list built by `setAnchorsFromPoints`: `points.length / 4 + 1`
fresh `'C'` anchors whose coordinates are filled per 4-point chunk. -/
def anchorsFromManim (pts : List Vec) : List Anchor :=
  (List.range (pts.length / 4 + 1)).map (manimAnchorAt pts cmdC)

/-- Modelled from the spec: `utils.pathFromManimPoints(coeffs, commands)`
rebuilds an open path whose consecutive 4-point segments are the given
coefficients (same anchor layout as `setAnchorsFromPoints`) and whose anchor
commands are the given per-vertex command tags. -/
def pathFromManimPoints (pts : List Vec) (cmds : List String) : Path :=
  ⟨(List.range (pts.length / 4 + 1)).map (fun j => manimAnchorAt pts (cmds.getD j cmdC) j),
   false⟩

/-- Modelled from the spec: `utils.pathFromAnchors(anchors, handles1, handles2)`
builds a path from anchor positions and incoming/outgoing control handles.
Every modelled call site passes a single degenerate anchor with all handles
equal to the position. -/
def pathFromAnchors (anchors h1 h2 : List Vec) : Path :=
  ⟨List.zipWith (fun a z => Anchor.mk a z.1 z.2 cmdC) anchors (h1.zip h2), false⟩

/-- `Group.setAnchorsFromPoints(points)` replaces the path's vertices with the
anchors rebuilt from a flat manim point list; the `closed` flag is untouched. -/
def setAnchorsFromPoints (p : Path) (pts : List Vec) : Path :=
  ⟨anchorsFromManim pts, p.closed⟩

/-- `Group.pointwiseBecomePartial(other, a, b)`: the replacement path is built
from the first `bIndex` whole segments of `other` plus the left half of the
split of segment `bIndex` at `bResidue`, where
`(bIndex, bResidue) = integerInterpolate(0, segmentCount, b)`; it takes the
matching prefix of `other`'s per-vertex command tags and is marked open.  The
lower bound `a` is accepted but unused (the source's `a` handling is commented
out); the source installs the result as the receiver's path and re-applies the
receiver's own style dict, which is the identity on the style record. -/
def pointwiseBecomePartial (other : Path) (a b : ℚ) : Path :=
  let bezierQuads := chunk4 (getManimPoints other)
  let ir := integerInterpolate 0 bezierQuads.length b
  let newPathCoeffs :=
    bezierQuads.take ir.1 ++
      (if ir.1 < bezierQuads.length then [splitBezier (bezierQuads.getD ir.1 qzero) ir.2] else [])
  let vertexCommands := (other.vertices.take (newPathCoeffs.length + 1)).map Anchor.command
  let partialPath := pathFromManimPoints (newPathCoeffs.flatMap Quad.toList) vertexCommands
  ⟨partialPath.vertices, false⟩

/-! ## The mobject tree -/

/-- A mobject tree node: its own path (`children[0]` in the source), its style
record, and its submobjects (`children.slice(1)`).  The concrete class of a
node (`Group`, `Mobject`, shape subclasses, …) only affects construction and
style propagation to containers, neither of which the claims touch. -/
inductive Mob where
  | mk (path : Path) (style : Style) (submobjects : List Mob)

def Mob.path : Mob → Path
  | .mk p _ _ => p

def Mob.style : Mob → Style
  | .mk _ s _ => s

def Mob.submobjects : Mob → List Mob
  | .mk _ _ subs => subs

/-- `this.points()`: the vertices of the node's own path. -/
def Mob.points (m : Mob) : List Anchor := m.path.vertices

def Mob.withPath : Mob → Path → Mob
  | .mk _ s subs, p => .mk p s subs

def Mob.withStyle : Mob → Style → Mob
  | .mk p _ subs, s => .mk p s subs

def Mob.withSubmobjects : Mob → List Mob → Mob
  | .mk p s _, subs => .mk p s subs

mutual
/-- All anchor positions in the hierarchy (self plus descendants), as folded
over by `getPointCenter` / `getDimensions`. -/
def Mob.allPositions : Mob → List Vec
  | .mk p _ subs => p.vertices.map Anchor.pos ++ allPositionsList subs
def allPositionsList : List Mob → List Vec
  | [] => []
  | m :: rest => Mob.allPositions m ++ allPositionsList rest
end

def foldMin (a : ℚ) (l : List ℚ) : ℚ := l.foldl min a
def foldMax (a : ℚ) (l : List ℚ) : ℚ := l.foldl max a

/-- `Group.getPointCenter()`: `[0, 0]` when the node's own path is empty,
otherwise the bounding-box center of every anchor position in the hierarchy.
The source seeds its min/max folds with ±Infinity; ℚ has no infinities, so the
(here non-empty) position list seeds the folds instead. -/
def getPointCenter (m : Mob) : Vec :=
  if m.points.length = 0 then vzero
  else
    match Mob.allPositions m with
    | [] => vzero
    | v :: rest =>
      ⟨(foldMin v.x (rest.map Vec.x) + foldMax v.x (rest.map Vec.x)) / 2,
       (foldMin v.y (rest.map Vec.y) + foldMax v.y (rest.map Vec.y)) / 2⟩

/-- Modelled from the spec: `getPixelCenter` returns the mobject's pixel-space
centroid; the source delegates to the DOM's `getBoundingClientRect`, external
to this core.  It is modelled as the bounding-box center of the hierarchy's
anchor positions, `[0, 0]` when there are none; no claim depends on the value,
only on where the alignment engine uses it. -/
def getPixelCenter (m : Mob) : Vec :=
  match Mob.allPositions m with
  | [] => vzero
  | v :: rest =>
    ⟨(foldMin v.x (rest.map Vec.x) + foldMax v.x (rest.map Vec.x)) / 2,
     (foldMin v.y (rest.map Vec.y) + foldMax v.y (rest.map Vec.y)) / 2⟩

/-- Modelled from the spec: the color constants of the external `constants.js`.
Only their identity as strings matters here. -/
def whiteColor : String := "#fff"

def blackColor : String := "#000"

/-- The `DEFAULT_STYLE` applied by the `Mobject` constructor. -/
def defaultStyle : Style := ⟨whiteColor, 1, blackColor, 0, 4⟩

/-- `Group.getPointMobject()`: a fresh `Mobject` whose path is the single
degenerate anchor at the node's point center. -/
def getPointMobject (m : Mob) : Mob :=
  let c := getPointCenter m
  Mob.mk (pathFromAnchors [c] [c] [c]) defaultStyle []

/-- `Group.pushSelfIntoSubmobjects()`: clone the own path into a fresh child
`Mobject` carrying the node's style dict, replace the own path with a single
degenerate anchor at the (pre-replacement) point center, and append the clone
to the submobjects. -/
def pushSelfIntoSubmobjects (m : Mob) : Mob :=
  let cloned := Mob.mk m.path m.style []
  let c := getPointCenter m
  Mob.mk (pathFromAnchors [c] [c] [c]) m.style (m.submobjects ++ [cloned])

/-- `Group.nullPointAlign(other)`: if exactly one of the two nodes has an empty
own path, the non-empty one pushes its geometry into a synthetic child. -/
def nullPointAlign (x y : Mob) : Mob × Mob :=
  if x.points.length = 0 ∧ y.points.length ≠ 0 then (x, pushSelfIntoSubmobjects y)
  else if y.points.length = 0 ∧ x.points.length ≠ 0 then (pushSelfIntoSubmobjects x, y)
  else (x, y)

/-- The proportional split-factor allocation shared by `addSubmobjects` and
`addPoints`: entry `i` counts the `j ∈ [0, target)` with
`⌊j·cur/target⌋ = i` (`repeatIndices` in the source; `np.arange` of the
external numeric utility is `List.range`). -/
def splitFactorsList (cur target : ℕ) : List ℕ :=
  let repeatIndices := (List.range target).map (fun j => j * cur / target)
  (List.range cur).map (fun i => (repeatIndices.filter (fun r => r = i)).length)

/-- Modelled from the spec: `chroma(c).alpha(0).hex()` — the external color
library renders the color with a zero alpha channel baked into the hex
string.  Only its effect on the stored color string matters here. -/
def withAlphaZero (c : String) : String := c ++ "00"

/-- The transparent duplicate made for the clones beyond the first in
`addSubmobjects`: `applyStyle` with alpha-zero stroke and fill colors. -/
def makeTransparent (m : Mob) : Mob :=
  m.withStyle (Style.applyPatch m.style
    ⟨some (withAlphaZero m.style.strokeColor), none,
     some (withAlphaZero m.style.fillColor), none, none⟩)

/-- The `currentNumSubmobjects === 0` branch of `addSubmobjects`: append `n`
fresh point mobjects one at a time (`getPointMobject` is re-evaluated on the
updated node each iteration, as in the source's loop). -/
def addPointMobjects : Mob → ℕ → Mob
  | m, 0 => m
  | m, n + 1 => addPointMobjects (m.withSubmobjects (m.submobjects ++ [getPointMobject m])) n

/-- `Group.addSubmobjects(n)`: replace the submobjects with, per existing child
`i`, the child followed by `splitFactors[i] − 1` transparent clones; with no
existing children, append `n` fresh point mobjects instead. -/
def addSubmobjects (m : Mob) (n : ℕ) : Mob :=
  let cur := m.submobjects.length
  if cur = 0 then addPointMobjects m n
  else
    let target := cur + n
    let sf := splitFactorsList cur target
    let newSubs := (m.submobjects.zip sf).flatMap
      (fun z => z.1 :: List.replicate (z.2 - 1) (makeTransparent z.1))
    m.withSubmobjects newSubs

/-- `Group.alignSubmobjects(other)`: if the child counts differ, the side with
fewer children grows by the difference. -/
def alignSubmobjects (x y : Mob) : Mob × Mob :=
  if x.submobjects.length = y.submobjects.length then (x, y)
  else if x.submobjects.length < y.submobjects.length then
    (addSubmobjects x (y.submobjects.length - x.submobjects.length), y)
  else
    (x, addSubmobjects y (x.submobjects.length - y.submobjects.length))

/-- `Group.addPoints(n)`, at the path level (the source method only reads and
writes `this.points()`): with exactly one anchor it first pushes `n` clones of
it (the caller's `setAnchorsFromPoints` then overwrites the vertices); it then
subdivides each of the `curNum − 1` existing curves into `splitFactors[i]`
pieces at evenly spaced parameters and returns the flat list of the pieces'
coefficient points. -/
def addPointsPath (p : Path) (n : ℕ) : Path × List Vec :=
  let curNum0 := p.vertices.length
  let p1 := if curNum0 = 1 then
      Path.mk (p.vertices ++ List.replicate n (p.vertices.getD 0 anchorZero)) p.closed
    else p
  let curNum := curNum0 - 1
  let targetNum := curNum + n
  let sf := splitFactorsList curNum targetNum
  let newPoints := (List.range curNum).flatMap (fun i =>
    let a := p1.vertices.getD i anchorZero
    let b := p1.vertices.getD (i + 1) anchorZero
    let k := sf.getD i 0
    let alphas := linspace01 (k + 1)
    (List.range k).flatMap (fun j =>
      Quad.toList (partialBezierPoints a b (alphas.getD j 0) (alphas.getD (j + 1) 0))))
  (p1, newPoints)

/-- The anchor pushed by the zero-point seeding step of `alignPoints`:
`new Two.Anchor(cx, cy, cx, cy, cx, cy, 'C')`. -/
def centerAnchor (c : Vec) : Anchor := ⟨c, c, c, cmdC⟩

/-- `Group.alignPoints(other)` at the path level, given the receiver's pixel
center `c` (the source computes `this.getPixelCenter()` for both seeds): if
the point counts differ, seed any empty side with one degenerate anchor at
`c`, then grow the side with fewer points via `addPoints` followed by
`setAnchorsFromPoints`. -/
def alignPointsPaths (p q : Path) (c : Vec) : Path × Path :=
  if p.vertices.length = q.vertices.length then (p, q)
  else
    let p1 := if p.vertices.length = 0 then Path.mk [centerAnchor c] p.closed else p
    let q1 := if q.vertices.length = 0 then Path.mk [centerAnchor c] q.closed else q
    if p1.vertices.length < q1.vertices.length then
      let r := addPointsPath p1 (q1.vertices.length - p1.vertices.length)
      (setAnchorsFromPoints r.1 r.2, q1)
    else
      let r := addPointsPath q1 (p1.vertices.length - q1.vertices.length)
      (p1, setAnchorsFromPoints r.1 r.2)

/-- `Group.alignPoints(other)`: the path-level computation applied to both
nodes' own paths; submobjects are untouched. -/
def alignPoints (x y : Mob) : Mob × Mob :=
  let r := alignPointsPaths x.path y.path (getPixelCenter x)
  (x.withPath r.1, y.withPath r.2)

/-- `Group.alignData(other)` with explicit fuel: run the three alignment
stages, then recurse into the corresponding child pairs (the source asserts
the child counts are equal before its `forEach` over the pairs). -/
def alignDataF : ℕ → Mob → Mob → Mob × Mob
  | 0, x, y => (x, y)
  | fuel + 1, x, y =>
    let r1 := nullPointAlign x y
    let r2 := alignSubmobjects r1.1 r1.2
    let r3 := alignPoints r2.1 r2.2
    let aligned := (r3.1.submobjects.zip r3.2.submobjects).map (fun z => alignDataF fuel z.1 z.2)
    (r3.1.withSubmobjects (aligned.map Prod.fst), r3.2.withSubmobjects (aligned.map Prod.snd))

mutual
/-- Tree depth: 0 at a childless node, one more than the deepest child
otherwise.  Used only to bound the recursion depth of `alignData`. -/
def Mob.depth : Mob → ℕ
  | .mk _ _ subs => depthList subs
def depthList : List Mob → ℕ
  | [] => 0
  | m :: rest => max (Mob.depth m + 1) (depthList rest)
end

/-- `Group.alignData(other)`: the fuel bound `max depth + 2` covers the
deepest recursion the stages can create (each child pair is at most one level
shallower, except that aligning two childless nodes can create one extra level
of childless children). -/
def alignData (x y : Mob) : Mob × Mob :=
  alignDataF (max (Mob.depth x) (Mob.depth y) + 2) x y

mutual
/-- Structural congruence of two trees: equal child counts at every
corresponding level. -/
def sameShape : Mob → Mob → Bool
  | .mk _ _ xs, .mk _ _ ys => (xs.length == ys.length) && sameShapeList xs ys
def sameShapeList : List Mob → List Mob → Bool
  | [], _ => true
  | _ :: _, [] => true
  | x :: xs, y :: ys => sameShape x y && sameShapeList xs ys
end

mutual
/-- Pairs of trees on which every stage of `alignData` is the value-level
identity at every corresponding level, with equal child counts throughout. -/
def FixPair : Mob → Mob → Prop
  | .mk px sx xs, .mk py sy ys =>
    nullPointAlign (.mk px sx xs) (.mk py sy ys) = (.mk px sx xs, .mk py sy ys) ∧
    alignSubmobjects (.mk px sx xs) (.mk py sy ys) = (.mk px sx xs, .mk py sy ys) ∧
    alignPoints (.mk px sx xs) (.mk py sy ys) = (.mk px sx xs, .mk py sy ys) ∧
    xs.length = ys.length ∧
    FixList xs ys
def FixList : List Mob → List Mob → Prop
  | [], _ => True
  | _ :: _, [] => True
  | x :: xs, y :: ys => FixPair x y ∧ FixList xs ys
end

/-! ## The animation engine -/

/-- `Animation.getSubAlpha(alpha, index, numSubmobjects)`: the staggered
per-node progress.  The source's `console.assert(0 <= alpha && alpha <= 1)`
only logs and does not alter the computation. -/
def getSubAlpha (lagRatio alpha : ℚ) (index numSubmobjects : ℕ) : ℚ :=
  let fullRuntime : ℚ := ((numSubmobjects : ℚ) - 1) * lagRatio + 1
  let fullRuntimeAlpha := fullRuntime * alpha
  let startTime := lagRatio * (index : ℚ)
  let endTime := startTime + 1
  if fullRuntimeAlpha ≤ startTime then 0
  else if endTime ≤ fullRuntimeAlpha then 1
  else fullRuntimeAlpha - startTime

/-- `Animation.interpolateMobject(alpha)`: apply the per-node step to each
argument tuple at its staggered sub-alpha.  The step function and the argument
list abstract `interpolateSubmobject` and `getAllArgsToInterpolateSubmobject`
(whose tuples pair each point-bearing node with its parameterizing copies). -/
def interpolateMobject {β γ : Type} (lagRatio : ℚ) (step : ℚ → β → γ)
    (args : List β) (alpha : ℚ) : List γ :=
  args.enum.map (fun z => step (getSubAlpha lagRatio alpha z.1 args.length) z.2)

/-- The alpha clamping at the top of `Animation.interpolate`. -/
def clampAlpha (alpha : ℚ) : ℚ :=
  if alpha < 0 then 0 else if alpha > 1 then 1 else alpha

/-- `Animation.interpolate(alpha)`: clamp the incoming alpha to `[0, 1]`, ease
it through the rate function, and run `interpolateMobject` on the result. -/
def animationInterpolate {β γ : Type} (rateFunc : ℚ → ℚ) (lagRatio : ℚ)
    (step : ℚ → β → γ) (args : List β) (alpha : ℚ) : List γ :=
  interpolateMobject lagRatio step args (rateFunc (clampAlpha alpha))

/-- The lag-ratio default of `Write.setConfigFromLength`:
`Math.min(4 / length, 0.2)`.  In JS, `4 / 0` is `Infinity`, whose minimum with
`0.2` is `0.2`; rational division by zero does not model IEEE infinity, so the
`length = 0` case is written out. -/
def lagRatioDefault (length : ℕ) : ℚ :=
  if length = 0 then 1 / 5 else min (4 / (length : ℚ)) (1 / 5)

/-- `Write.setConfigFromLength(length)`: fill a `null` runtime with 1 for a
truthy (non-zero) length and 2 otherwise, and a `null` lag ratio with
`min(4 / length, 0.2)`. -/
def setConfigFromLength (runtime lagRatio : Option ℚ) (length : ℕ) : Option ℚ × Option ℚ :=
  (some (runtime.getD (if length ≠ 0 then 1 else 2)),
   some (lagRatio.getD (lagRatioDefault length)))

/-- The coordinates of the last anchor of a path, compared by the
`_.last(...).equals(_.last(...))` check of `Write.interpolateSubmobject`
(Two.js vector equality, an external-library call on the anchors'
coordinates). -/
def lastPos (p : Path) : Option Vec := p.vertices.getLast?.map Anchor.pos

/-- `Write.interpolateSubmobject(alpha, submob, startingSubmobject)` on the
(path, style) state of the node: for `alpha ≤ 0.5` a partial reveal of the
starting path over `[0, 2 alpha]`; otherwise complete the reveal if the last
anchors differ, then set the fill opacity to `2 alpha − 1`. -/
def writeInterpolateSubmobject (alpha : ℚ) (submob starting : Path × Style) :
    Path × Style :=
  if alpha ≤ 1 / 2 then
    (pointwiseBecomePartial starting.1 0 (2 * alpha), submob.2)
  else
    let completed :=
      if lastPos submob.1 ≠ lastPos starting.1 then pointwiseBecomePartial starting.1 0 1
      else submob.1
    (completed, Style.applyPatch submob.2 ⟨none, none, none, some (2 * alpha - 1), none⟩)

/-! ## Timing-engine lemmas -/

theorem getSubAlpha_eval (lagRatio alpha : ℚ) (index numSubmobjects : ℕ) :
    getSubAlpha lagRatio alpha index numSubmobjects =
      (if ((numSubmobjects : ℚ) - 1) * lagRatio * alpha + alpha ≤ lagRatio * (index : ℚ) then 0
       else if lagRatio * (index : ℚ) + 1 ≤ ((numSubmobjects : ℚ) - 1) * lagRatio * alpha + alpha
       then 1
       else ((numSubmobjects : ℚ) - 1) * lagRatio * alpha + alpha - lagRatio * (index : ℚ)) := by
  simp only [getSubAlpha]
  have h : (((numSubmobjects : ℚ) - 1) * lagRatio + 1) * alpha =
      ((numSubmobjects : ℚ) - 1) * lagRatio * alpha + alpha := by ring
  rw [h]

theorem enumFrom_map_const {β γ : Type} (step : ℚ → β → γ) (g : ℕ → ℚ) (c : ℚ) :
    ∀ (l : List β) (k : ℕ), (∀ j, k ≤ j → j < k + l.length → g j = c) →
      (l.enumFrom k).map (fun z => step (g z.1) z.2) = l.map (step c)
  | [], _, _ => rfl
  | b :: l, k, h => by
    rw [List.enumFrom_cons]
    simp only [List.map_cons]
    rw [h k le_rfl (by simp), enumFrom_map_const step g c l (k + 1)
      (fun j h1 h2 => h j (by omega) (by simpa [Nat.add_comm, Nat.add_assoc] using by omega))]

theorem interpolateMobject_const {β γ : Type} (lagRatio : ℚ) (step : ℚ → β → γ)
    (args : List β) (alpha c : ℚ)
    (h : ∀ j, j < args.length → getSubAlpha lagRatio alpha j args.length = c) :
    interpolateMobject lagRatio step args alpha = args.map (step c) := by
  unfold interpolateMobject
  exact enumFrom_map_const step _ c args 0 (fun j _ h2 => h j (by omega))

theorem getSubAlpha_at_zero (lagRatio : ℚ) (hlag : 0 ≤ lagRatio) (i N : ℕ) :
    getSubAlpha lagRatio 0 i N = 0 := by
  rw [getSubAlpha_eval]
  have : (0 : ℚ) ≤ lagRatio * (i : ℚ) := by positivity
  simp only [mul_zero, zero_add, add_zero]
  rw [if_pos (by linarith)]

theorem getSubAlpha_at_one (lagRatio : ℚ) (hlag : 0 ≤ lagRatio) (i N : ℕ) (hi : i < N) :
    getSubAlpha lagRatio 1 i N = 1 := by
  rw [getSubAlpha_eval]
  have hiN : (i : ℚ) ≤ (N : ℚ) - 1 := by
    have : (i : ℚ) + 1 ≤ (N : ℚ) := by exact_mod_cast hi
    linarith
  have h1 : lagRatio * (i : ℚ) ≤ ((N : ℚ) - 1) * lagRatio := by
    have := mul_le_mul_of_nonneg_left hiN hlag
    linarith [this]
  rw [if_neg (by linarith), if_pos (by linarith)]

/-- C10: for every node count `N ≥ 1`, index `i < N` and lag ratio `≥ 0`,
`getSubAlpha 0 i N = 0` and `getSubAlpha 1 i N = 1`; consequently
`interpolateMobject` at eased alpha 0 applies the per-node step at sub-alpha 0
to every node (its start state) and at eased alpha 1 applies it at sub-alpha 1
to every node (its finished state), regardless of the stagger setting. -/
theorem claim_C10 {β γ : Type} (lagRatio : ℚ) (hlag : 0 ≤ lagRatio) (N i : ℕ)
    (hN : 1 ≤ N) (hi : i < N) (step : ℚ → β → γ) (args : List β) :
    getSubAlpha lagRatio 0 i N = 0 ∧ getSubAlpha lagRatio 1 i N = 1 ∧
    interpolateMobject lagRatio step args 0 = args.map (step 0) ∧
    interpolateMobject lagRatio step args 1 = args.map (step 1) := by
  refine ⟨getSubAlpha_at_zero lagRatio hlag i N, getSubAlpha_at_one lagRatio hlag i N hi, ?_, ?_⟩
  · exact interpolateMobject_const lagRatio step args 0 0
      (fun j _ => getSubAlpha_at_zero lagRatio hlag j args.length)
  · exact interpolateMobject_const lagRatio step args 1 1
      (fun j hj => getSubAlpha_at_one lagRatio hlag j args.length hj)

theorem claim_C10_witness :
    (0 : ℚ) ≤ 1/2 ∧ 1 ≤ 3 ∧ 1 < 3 ∧
      (getSubAlpha (1/2) 0 1 3 = 0 ∧ getSubAlpha (1/2) 1 1 3 = 1 ∧
       interpolateMobject (1/2) (fun a b => a + b) [(5 : ℚ), 7] 0 =
         [(5 : ℚ), 7].map (fun b => 0 + b) ∧
       interpolateMobject (1/2) (fun a b => a + b) [(5 : ℚ), 7] 1 =
         [(5 : ℚ), 7].map (fun b => 1 + b)) :=
  ⟨by norm_num, by norm_num, by norm_num,
   claim_C10 (1/2) (by norm_num) 3 1 (by norm_num) (by norm_num) (fun a b => a + b) [5, 7]⟩

/-- C6: when `lagRatio = 0`, `getSubAlpha easedAlpha i N = easedAlpha` for
every index `i`, node count `N` and eased alpha in `[0, 1]` — all nodes
progress fully simultaneously. -/
theorem claim_C6 (alpha : ℚ) (h0 : 0 ≤ alpha) (h1 : alpha ≤ 1) (i N : ℕ) :
    getSubAlpha 0 alpha i N = alpha := by
  rw [getSubAlpha_eval]
  simp only [mul_zero, zero_mul, zero_add, sub_zero]
  split_ifs with ha hb
  · linarith
  · linarith
  · rfl

theorem claim_C6_witness :
    (0 : ℚ) ≤ 3/7 ∧ (3 : ℚ)/7 ≤ 1 ∧ getSubAlpha 0 (3/7) 5 9 = 3/7 :=
  ⟨by norm_num, by norm_num, claim_C6 (3/7) (by norm_num) (by norm_num) 5 9⟩

/-- C7: with `N = 3` and `lagRatio = 0.5`, node 0 reaches sub-alpha 1 at or
before node 2 first leaves sub-alpha 0: whenever node 2's sub-alpha is
positive, node 0's is exactly 1; and at the boundary
`scaled = fullRuntime · easedAlpha = 1` (eased alpha `1/2`), node 0 is exactly
finished and node 2 exactly 0. -/
theorem claim_C7 :
    (∀ alpha : ℚ, 0 < getSubAlpha (1/2) alpha 2 3 → getSubAlpha (1/2) alpha 0 3 = 1) ∧
    getSubAlpha (1/2) (1/2) 0 3 = 1 ∧ getSubAlpha (1/2) (1/2) 2 3 = 0 := by
  refine ⟨fun alpha h => ?_, by norm_num [getSubAlpha_eval], by norm_num [getSubAlpha_eval]⟩
  rw [getSubAlpha_eval] at h ⊢
  have e2 : ((2 : ℕ) : ℚ) = 2 := by norm_num
  have e3 : ((3 : ℕ) : ℚ) = 3 := by norm_num
  have e0 : ((0 : ℕ) : ℚ) = 0 := by norm_num
  rw [e2, e3] at h
  rw [e0, e3]
  by_cases ha : (3 - 1 : ℚ) * (1/2) * alpha + alpha ≤ (1/2) * 2
  · rw [if_pos ha] at h
    exact absurd h (lt_irrefl 0)
  · push_neg at ha
    rw [if_neg (by linarith), if_pos (by linarith)]

theorem claim_C7_witness :
    0 < getSubAlpha (1/2) (3/4) 2 3 ∧ getSubAlpha (1/2) (3/4) 0 3 = 1 := by
  have h : 0 < getSubAlpha (1/2) (3/4) 2 3 := by norm_num [getSubAlpha_eval]
  exact ⟨h, claim_C7.1 (3/4) h⟩

/-- C5: `Animation.interpolate` silently clamps its alpha to `[0, 1]` before
the rate function is applied: an alpha below 0 behaves exactly like 0, an
alpha above 1 exactly like 1, an in-range alpha is passed through, and the
result is always defined (the modelled function is total). -/
theorem claim_C5 {β γ : Type} (rateFunc : ℚ → ℚ) (lagRatio : ℚ) (step : ℚ → β → γ)
    (args : List β) (alpha : ℚ) :
    (alpha < 0 →
      animationInterpolate rateFunc lagRatio step args alpha =
        interpolateMobject lagRatio step args (rateFunc 0)) ∧
    (1 < alpha →
      animationInterpolate rateFunc lagRatio step args alpha =
        interpolateMobject lagRatio step args (rateFunc 1)) ∧
    (0 ≤ alpha → alpha ≤ 1 →
      animationInterpolate rateFunc lagRatio step args alpha =
        interpolateMobject lagRatio step args (rateFunc alpha)) := by
  refine ⟨fun h => ?_, fun h => ?_, fun h0 h1 => ?_⟩ <;>
    · unfold animationInterpolate clampAlpha
      split_ifs <;> first | rfl | linarith

theorem claim_C5_witness :
    ((-1 : ℚ) < 0 ∧
      animationInterpolate (fun a => a * a) (1/2) (fun a b => a + b) [(4 : ℚ)] (-1) =
        interpolateMobject (1/2) (fun a b => a + b) [(4 : ℚ)] ((fun a : ℚ => a * a) 0)) ∧
    ((1 : ℚ) < 2 ∧
      animationInterpolate (fun a => a * a) (1/2) (fun a b => a + b) [(4 : ℚ)] 2 =
        interpolateMobject (1/2) (fun a b => a + b) [(4 : ℚ)] ((fun a : ℚ => a * a) 1)) :=
  ⟨⟨by norm_num, (claim_C5 (fun a => a * a) (1/2) (fun a b => a + b) [4] (-1)).1 (by norm_num)⟩,
   ⟨by norm_num, (claim_C5 (fun a => a * a) (1/2) (fun a b => a + b) [4] 2).2.1 (by norm_num)⟩⟩

/-- C9: when a `Write` is constructed without explicit runtime and lag ratio
and the target hierarchy length is 0, the defaults are still well-defined: the
lag-ratio default's division by `length` resolves to `0.2` at `length = 0`
(in JS, `Math.min(4/0, 0.2) = Math.min(Infinity, 0.2)`), and the runtime falls
back to the longer default 2 rather than the non-staggered-case default 1. -/
theorem claim_C9 :
    setConfigFromLength none none 0 = (some 2, some (1/5)) ∧
    lagRatioDefault 0 = 1/5 ∧
    (∀ length : ℕ, length ≠ 0 → setConfigFromLength none none length =
      (some 1, some (lagRatioDefault length))) := by
  refine ⟨?_, ?_, fun length h => ?_⟩
  · simp [setConfigFromLength, lagRatioDefault]
  · simp [lagRatioDefault]
  · simp [setConfigFromLength, h]

theorem claim_C9_witness :
    (3 : ℕ) ≠ 0 ∧ setConfigFromLength none none 3 = (some 1, some (lagRatioDefault 3)) :=
  ⟨by norm_num, claim_C9.2.2 3 (by norm_num)⟩

/-! ## Accessor lemmas for the mobject tree -/

@[simp] theorem withSubmobjects_submobjects (m : Mob) (l : List Mob) :
    (m.withSubmobjects l).submobjects = l := by cases m <;> rfl

@[simp] theorem withSubmobjects_path (m : Mob) (l : List Mob) :
    (m.withSubmobjects l).path = m.path := by cases m <;> rfl

@[simp] theorem withSubmobjects_style (m : Mob) (l : List Mob) :
    (m.withSubmobjects l).style = m.style := by cases m <;> rfl

@[simp] theorem withPath_path (m : Mob) (p : Path) : (m.withPath p).path = p := by
  cases m <;> rfl

@[simp] theorem withPath_submobjects (m : Mob) (p : Path) :
    (m.withPath p).submobjects = m.submobjects := by cases m <;> rfl

@[simp] theorem withPath_style (m : Mob) (p : Path) : (m.withPath p).style = m.style := by
  cases m <;> rfl

@[simp] theorem withStyle_path (m : Mob) (s : Style) : (m.withStyle s).path = m.path := by
  cases m <;> rfl

@[simp] theorem withStyle_submobjects (m : Mob) (s : Style) :
    (m.withStyle s).submobjects = m.submobjects := by cases m <;> rfl

@[simp] theorem points_withSubmobjects (m : Mob) (l : List Mob) :
    (m.withSubmobjects l).points = m.points := by cases m <;> rfl

@[simp] theorem points_withPath (m : Mob) (p : Path) :
    (m.withPath p).points = p.vertices := by cases m <;> rfl

@[simp] theorem points_mk (p : Path) (s : Style) (l : List Mob) :
    (Mob.mk p s l).points = p.vertices := rfl

@[simp] theorem submobjects_mk (p : Path) (s : Style) (l : List Mob) :
    (Mob.mk p s l).submobjects = l := rfl

@[simp] theorem mob_path_mk (p : Path) (s : Style) (l : List Mob) :
    (Mob.mk p s l).path = p := rfl

@[simp] theorem mob_style_mk (p : Path) (s : Style) (l : List Mob) :
    (Mob.mk p s l).style = s := rfl

@[simp] theorem withSubmobjects_self (m : Mob) : m.withSubmobjects m.submobjects = m := by
  cases m <;> rfl

@[simp] theorem makeTransparent_submobjects (m : Mob) :
    (makeTransparent m).submobjects = m.submobjects := by
  unfold makeTransparent; simp

@[simp] theorem makeTransparent_points (m : Mob) :
    (makeTransparent m).points = m.points := by
  unfold makeTransparent; cases m <;> rfl

/-! ## The proportional allocation (C4) -/

theorem sum_map_add (u v : ℕ → ℕ) :
    ∀ l : List ℕ, (l.map (fun i => u i + v i)).sum = (l.map u).sum + (l.map v).sum
  | [] => rfl
  | a :: l => by
    simp only [List.map_cons, List.sum_cons, sum_map_add u v l]
    omega

theorem sum_indicator (v : ℕ) :
    ∀ n : ℕ, ((List.range n).map (fun i => if v = i then 1 else 0)).sum =
      if v < n then 1 else 0
  | 0 => rfl
  | n + 1 => by
    rw [List.range_succ, List.map_append, List.sum_append, sum_indicator v n]
    simp only [List.map_cons, List.map_nil, List.sum_cons, List.sum_nil]
    by_cases h : v < n
    · rw [if_pos h, if_neg (by omega), if_pos (by omega)]
      omega
    · rw [if_neg h]
      by_cases h2 : v = n
      · rw [if_pos h2, if_pos (by omega)]
        omega
      · rw [if_neg h2, if_neg (by omega)]
        omega

/-- Counting the elements of `L` fiber by fiber over the values `< cur`
recovers the length of `L`. -/
theorem fiber_count_sum (cur : ℕ) :
    ∀ L : List ℕ, (∀ r ∈ L, r < cur) →
      ((List.range cur).map (fun i => (L.filter (fun r => r = i)).length)).sum = L.length
  | [], _ => by simp
  | r :: L, h => by
    have hr : r < cur := h r (by simp)
    have hL : ∀ x ∈ L, x < cur := fun x hx => h x (by simp [hx])
    have hcong : (List.range cur).map (fun i => ((r :: L).filter (fun x => x = i)).length) =
        (List.range cur).map
          (fun i => (if r = i then 1 else 0) + (L.filter (fun x => x = i)).length) := by
      refine List.map_congr_left (fun i _ => ?_)
      rw [List.filter_cons]
      by_cases hri : r = i
      · simp [hri]
        omega
      · simp [hri]
    rw [hcong, sum_map_add, sum_indicator, if_pos hr, fiber_count_sum cur L hL]
    simp only [List.length_cons]
    omega

theorem splitFactorsList_length (cur target : ℕ) :
    (splitFactorsList cur target).length = cur := by
  simp [splitFactorsList]

theorem splitFactorsList_sum (cur target : ℕ) (hc : 1 ≤ cur) :
    (splitFactorsList cur target).sum = target := by
  unfold splitFactorsList
  have h : ∀ r ∈ (List.range target).map (fun j => j * cur / target), r < cur := by
    intro r hrm
    obtain ⟨j, hj, rfl⟩ := List.mem_map.mp hrm
    have hjt : j < target := List.mem_range.mp hj
    have htpos : 0 < target := by omega
    rw [Nat.div_lt_iff_lt_mul htpos]
    calc j * cur < target * cur := (Nat.mul_lt_mul_right (show 0 < cur by omega)).mpr hjt
      _ = cur * target := Nat.mul_comm _ _
  rw [fiber_count_sum cur _ h]
  simp

/-- Every fiber of the proportional allocation is inhabited when
`1 ≤ cur ≤ target`: the witness is `⌈i · target / cur⌉`. -/
theorem splitFactorsList_pos (cur target : ℕ) (hc : 1 ≤ cur) (hct : cur ≤ target) :
    ∀ k ∈ splitFactorsList cur target, 1 ≤ k := by
  intro k hk
  unfold splitFactorsList at hk
  obtain ⟨i, hi, rfl⟩ := List.mem_map.mp hk
  have hicur : i < cur := List.mem_range.mp hi
  have htpos : 0 < target := by omega
  -- the fiber witness
  set x := i * target with hx
  set q := (x + cur - 1) / cur with hq
  have hmod := Nat.div_add_mod (x + cur - 1) cur
  have hrlt : (x + cur - 1) % cur < cur := Nat.mod_lt _ (by omega)
  have hqa : x ≤ q * cur := by
    have : cur * q + (x + cur - 1) % cur = x + cur - 1 := hmod
    have hcq : cur * q = q * cur := Nat.mul_comm _ _
    omega
  have hqb : q * cur ≤ x + cur - 1 := by
    have : cur * q + (x + cur - 1) % cur = x + cur - 1 := hmod
    have hcq : cur * q = q * cur := Nat.mul_comm _ _
    omega
  have hxle : x ≤ (cur - 1) * target := by
    have := Nat.mul_le_mul_right target (show i ≤ cur - 1 by omega)
    simpa [hx] using this
  have he : cur * target = (cur - 1) * target + target := by
    have hsub : cur - 1 + 1 = cur := Nat.sub_add_cancel hc
    calc cur * target = (cur - 1 + 1) * target := by rw [hsub]
      _ = (cur - 1) * target + 1 * target := by rw [Nat.add_mul]
      _ = (cur - 1) * target + target := by rw [Nat.one_mul]
  have hqt : q < target := by
    have h1 : q * cur < cur * target := by omega
    have h3 : q * cur < target * cur := by
      calc q * cur < cur * target := h1
        _ = target * cur := Nat.mul_comm _ _
    exact Nat.lt_of_mul_lt_mul_right h3
  have hdiv : q * cur / target = i := by
    have he2 : (i + 1) * target = x + target := by
      rw [Nat.add_mul, Nat.one_mul, hx]
    have hup : q * cur < (i + 1) * target := by omega
    have hdn : i ≤ q * cur / target := by
      rw [Nat.le_div_iff_mul_le htpos]
      exact hqa
    have hup2 : q * cur / target < i + 1 := by
      rw [Nat.div_lt_iff_lt_mul htpos]
      exact hup
    omega
  have hmem : (i : ℕ) ∈ (List.range target).map (fun j => j * cur / target) :=
    List.mem_map.mpr ⟨q, List.mem_range.mpr hqt, hdiv⟩
  have hcp : 0 < ((List.range target).map (fun j => j * cur / target)).countP (fun r => r = i) :=
    List.countP_pos.mpr ⟨i, hmem, by simp⟩
  rw [List.countP_eq_length_filter] at hcp
  omega

theorem addPointMobjects_length :
    ∀ (n : ℕ) (m : Mob),
      (addPointMobjects m n).submobjects.length = m.submobjects.length + n
  | 0, m => rfl
  | n + 1, m => by
    show (addPointMobjects (m.withSubmobjects (m.submobjects ++ [getPointMobject m])) n).submobjects.length = _
    rw [addPointMobjects_length n]
    simp only [withSubmobjects_submobjects, List.length_append, List.length_cons,
      List.length_nil]
    omega

theorem zip_flatMap_clone_length :
    ∀ (subs : List Mob) (sf : List ℕ), (∀ k ∈ sf, 1 ≤ k) → subs.length = sf.length →
      ((subs.zip sf).flatMap
        (fun z => z.1 :: List.replicate (z.2 - 1) (makeTransparent z.1))).length = sf.sum
  | [], [], _, _ => rfl
  | [], _ :: _, _, h => by simp at h
  | _ :: _, [], _, h => by simp at h
  | s :: subs, k :: sf, hpos, hlen => by
    have hk : 1 ≤ k := hpos k (by simp)
    have htail : ∀ k ∈ sf, 1 ≤ k := fun x hx => hpos x (by simp [hx])
    have hlen2 : subs.length = sf.length := by simpa using hlen
    simp only [List.zip_cons_cons, List.flatMap_cons, List.length_append, List.sum_cons,
      List.length_cons, List.length_replicate]
    rw [zip_flatMap_clone_length subs sf htail hlen2]
    omega

theorem addSubmobjects_length (m : Mob) (n : ℕ) :
    (addSubmobjects m n).submobjects.length = m.submobjects.length + n := by
  unfold addSubmobjects
  by_cases h : m.submobjects.length = 0
  · rw [if_pos h, addPointMobjects_length]
  · rw [if_neg h]
    simp only [withSubmobjects_submobjects]
    rw [zip_flatMap_clone_length _ _
      (splitFactorsList_pos _ _ (by omega) (by omega))
      (by rw [splitFactorsList_length])]
    rw [splitFactorsList_sum _ _ (by omega)]

theorem sum_getD_range :
    ∀ l : List ℕ, ((List.range l.length).map (fun i => l.getD i 0)).sum = l.sum
  | [] => rfl
  | a :: l => by
    have hstep : (List.range (l.length + 1)).map (fun i => (a :: l).getD i 0) =
        a :: (List.range l.length).map (fun i => l.getD i 0) := by
      rw [List.range_succ_eq_map]
      simp [List.map_map, Function.comp_def]
    simp only [List.length_cons, hstep, List.sum_cons]
    rw [sum_getD_range l]

theorem quad_toList_length (q : Quad) : (Quad.toList q).length = 4 := rfl

theorem sum_map_const_nat (c : ℕ) :
    ∀ k : ℕ, ((List.range k).map (fun _ => c)).sum = c * k
  | 0 => rfl
  | k + 1 => by
    rw [List.range_succ, List.map_append, List.sum_append, sum_map_const_nat c k]
    simp only [List.map_cons, List.map_nil, List.sum_cons, List.sum_nil]
    ring

theorem range_flatMap_const_length {α : Type} (f : ℕ → List α) (c : ℕ)
    (hf : ∀ j, (f j).length = c) (k : ℕ) : ((List.range k).flatMap f).length = c * k := by
  rw [List.length_flatMap]
  have h : (List.range k).map (List.length ∘ f) = (List.range k).map (fun _ => c) := by
    refine List.map_congr_left (fun j _ => ?_)
    simp [hf j]
  rw [h, sum_map_const_nat]

theorem sum_map_four_mul (g : ℕ → ℕ) :
    ∀ l : List ℕ, (l.map (fun i => 4 * g i)).sum = 4 * (l.map g).sum
  | [] => rfl
  | a :: l => by
    simp only [List.map_cons, List.sum_cons, sum_map_four_mul g l]
    omega

/-- The total number of coefficient points produced by subdividing `cur` curves
according to the proportional allocation with `n` extra points: four per piece,
`cur + n` pieces in total. -/
theorem flatMap_quads_length (cur n : ℕ) (F : ℕ → ℕ → Quad) (hc : 1 ≤ cur) :
    ((List.range cur).flatMap (fun i =>
      (List.range ((splitFactorsList cur (cur + n)).getD i 0)).flatMap
        (fun j => Quad.toList (F i j)))).length = 4 * (cur + n) := by
  rw [List.length_flatMap]
  have h1 : (List.range cur).map (List.length ∘ fun i =>
        (List.range ((splitFactorsList cur (cur + n)).getD i 0)).flatMap
          (fun j => Quad.toList (F i j))) =
      (List.range cur).map (fun i => 4 * (splitFactorsList cur (cur + n)).getD i 0) := by
    refine List.map_congr_left (fun i _ => ?_)
    exact range_flatMap_const_length _ 4 (fun j => quad_toList_length _) _
  rw [h1, sum_map_four_mul]
  have h3 : List.range cur = List.range (splitFactorsList cur (cur + n)).length := by
    rw [splitFactorsList_length]
  rw [h3, sum_getD_range, splitFactorsList_sum _ _ hc]

theorem length_anchorsFromManim (pts : List Vec) :
    (anchorsFromManim pts).length = pts.length / 4 + 1 := by
  simp [anchorsFromManim]

theorem setAnchorsFromPoints_length (p : Path) (pts : List Vec) :
    (setAnchorsFromPoints p pts).vertices.length = pts.length / 4 + 1 := by
  simp [setAnchorsFromPoints, length_anchorsFromManim]

theorem addPointsPath_snd_length (p : Path) (n : ℕ) (h : 2 ≤ p.vertices.length) :
    (addPointsPath p n).2.length = 4 * (p.vertices.length - 1 + n) := by
  unfold addPointsPath
  simp only [if_neg (show ¬ p.vertices.length = 1 by omega)]
  exact flatMap_quads_length (p.vertices.length - 1) n _ (by omega)

/-- C4: the proportional allocation `splitFactors[i] = #{j < n+k : ⌊j·n/(n+k)⌋ = i}`
used by `addSubmobjects` and `addPoints` yields, for every existing count
`n ≥ 1` and extra count `k ≥ 0`, a list of `n` positive (hence non-negative)
integers summing to `n + k`; consequently `addSubmobjects k` leaves a node with
exactly `k` more children, and the `addPoints`/`setAnchorsFromPoints` growth
step of `alignPoints` grows a path with at least one curve (≥ 2 anchors) by
exactly the requested number of points. -/
theorem claim_C4 :
    (∀ n k : ℕ, 1 ≤ n →
      (splitFactorsList n (n + k)).length = n ∧
      (∀ c ∈ splitFactorsList n (n + k), 1 ≤ c) ∧
      (splitFactorsList n (n + k)).sum = n + k) ∧
    (∀ (m : Mob) (k : ℕ),
      (addSubmobjects m k).submobjects.length = m.submobjects.length + k) ∧
    (∀ (p : Path) (k : ℕ), 2 ≤ p.vertices.length →
      (setAnchorsFromPoints (addPointsPath p k).1 (addPointsPath p k).2).vertices.length =
        p.vertices.length + k) := by
  refine ⟨fun n k hn => ⟨splitFactorsList_length n (n + k),
    splitFactorsList_pos n (n + k) hn (by omega), splitFactorsList_sum n (n + k) hn⟩,
    addSubmobjects_length, fun p k h => ?_⟩
  rw [setAnchorsFromPoints_length, addPointsPath_snd_length p k h,
    Nat.mul_div_cancel_left _ (by norm_num)]
  omega

theorem claim_C4_witness :
    ((1 : ℕ) ≤ 3 ∧
      ((splitFactorsList 3 (3 + 2)).length = 3 ∧
       (∀ c ∈ splitFactorsList 3 (3 + 2), 1 ≤ c) ∧
       (splitFactorsList 3 (3 + 2)).sum = 3 + 2)) ∧
    (2 ≤ (Path.mk [anchorZero, anchorZero] false).vertices.length ∧
      (setAnchorsFromPoints (addPointsPath (Path.mk [anchorZero, anchorZero] false) 3).1
        (addPointsPath (Path.mk [anchorZero, anchorZero] false) 3).2).vertices.length =
        (Path.mk [anchorZero, anchorZero] false).vertices.length + 3) :=
  ⟨⟨by norm_num, claim_C4.1 3 2 (by norm_num)⟩,
   ⟨by decide, claim_C4.2.2 (Path.mk [anchorZero, anchorZero] false) 3 (by decide)⟩⟩

/-! ## Partial-path extraction (C2) -/

theorem Quad.ext' (a b : Quad) (h0 : a.p0 = b.p0) (h1 : a.p1 = b.p1)
    (h2 : a.p2 = b.p2) (h3 : a.p3 = b.p3) : a = b := by
  cases a
  cases b
  simp_all

theorem lerpQ_one (a b : ℚ) : lerpQ a b 1 = b := by
  unfold lerpQ
  ring

theorem lerpV_one (p q : Vec) : lerpV p q 1 = q := by
  unfold lerpV
  rw [lerpQ_one, lerpQ_one]

/-- Splitting at parameter 1 keeps the whole segment. -/
theorem splitBezier_one (q : Quad) : splitBezier q 1 = q := by
  unfold splitBezier
  simp only [lerpV_one]

theorem splitBezier_p0 (q : Quad) (t : ℚ) : (splitBezier q t).p0 = q.p0 := rfl

theorem chunk4_flatMap : ∀ qs : List Quad, chunk4 (qs.flatMap Quad.toList) = qs
  | [] => rfl
  | q :: qs => by
    have h : (q :: qs).flatMap Quad.toList =
        q.p0 :: q.p1 :: q.p2 :: q.p3 :: qs.flatMap Quad.toList := by
      simp [Quad.toList]
    rw [h]
    simp only [chunk4]
    rw [chunk4_flatMap qs]

theorem flatMap_toList_length : ∀ qs : List Quad, (qs.flatMap Quad.toList).length = 4 * qs.length
  | [] => rfl
  | q :: qs => by
    simp only [List.flatMap_cons, List.length_append, flatMap_toList_length qs]
    simp [Quad.toList]
    ring

theorem quad_toList_getD (q : Quad) :
    (Quad.toList q).getD 0 vzero = q.p0 ∧ (Quad.toList q).getD 1 vzero = q.p1 ∧
    (Quad.toList q).getD 2 vzero = q.p2 ∧ (Quad.toList q).getD 3 vzero = q.p3 := by
  simp [Quad.toList]

theorem flatMap_toList_getD :
    ∀ (qs : List Quad) (j : ℕ), j < qs.length →
      (qs.flatMap Quad.toList).getD (4 * j) vzero = (qs.getD j qzero).p0 ∧
      (qs.flatMap Quad.toList).getD (4 * j + 1) vzero = (qs.getD j qzero).p1 ∧
      (qs.flatMap Quad.toList).getD (4 * j + 2) vzero = (qs.getD j qzero).p2 ∧
      (qs.flatMap Quad.toList).getD (4 * j + 3) vzero = (qs.getD j qzero).p3
  | [], j, h => by simp at h
  | q :: qs, 0, _ => by
    simp only [List.flatMap_cons, Nat.mul_zero, Nat.zero_add, List.getD_cons_zero]
    refine ⟨?_, ?_, ?_, ?_⟩ <;>
      simp [Quad.toList]
  | q :: qs, j + 1, h => by
    have hj : j < qs.length := by
      have := h
      simp only [List.length_cons] at this
      omega
    have ih := flatMap_toList_getD qs j hj
    have hlen : (Quad.toList q).length = 4 := quad_toList_length q
    have h0 : 4 * (j + 1) = (Quad.toList q).length + 4 * j := by omega
    have h1 : 4 * (j + 1) + 1 = (Quad.toList q).length + (4 * j + 1) := by omega
    have h2 : 4 * (j + 1) + 2 = (Quad.toList q).length + (4 * j + 2) := by omega
    have h3 : 4 * (j + 1) + 3 = (Quad.toList q).length + (4 * j + 3) := by omega
    simp only [List.flatMap_cons, List.getD_cons_succ]
    refine ⟨?_, ?_, ?_, ?_⟩
    · rw [h0, List.getD_append_right _ _ _ _ (by omega)]
      simpa using ih.1
    · rw [h1, List.getD_append_right _ _ _ _ (by omega)]
      simpa using ih.2.1
    · rw [h2, List.getD_append_right _ _ _ _ (by omega)]
      simpa using ih.2.2.1
    · rw [h3, List.getD_append_right _ _ _ _ (by omega)]
      simpa using ih.2.2.2

theorem quadsOfAnchors_length : ∀ l : List Anchor, (quadsOfAnchors l).length = l.length - 1
  | [] => rfl
  | [_] => rfl
  | a :: b :: rest => by
    simp only [quadsOfAnchors, List.length_cons]
    rw [quadsOfAnchors_length (b :: rest)]
    simp only [List.length_cons]
    omega

theorem quadsOfAnchors_chain' : ∀ l : List Anchor,
    List.Chain' (fun q q' : Quad => q.p3 = q'.p0) (quadsOfAnchors l)
  | [] => List.chain'_nil
  | [_] => List.chain'_nil
  | a :: b :: rest => by
    cases rest with
    | nil => simp [quadsOfAnchors]
    | cons c rest' =>
      have ih := quadsOfAnchors_chain' (b :: c :: rest')
      simp only [quadsOfAnchors] at ih ⊢
      exact List.chain'_cons.mpr ⟨rfl, ih⟩

theorem quadsOfAnchors_range_map :
    ∀ (K : ℕ) (g : ℕ → Anchor), quadsOfAnchors ((List.range (K + 1)).map g) =
      (List.range K).map
        (fun j => Quad.mk (g j).pos (g j).ctrlRight (g (j + 1)).ctrlLeft (g (j + 1)).pos)
  | 0, _ => rfl
  | K + 1, g => by
    have h1 : (List.range (K + 2)).map g = g 0 :: (List.range (K + 1)).map (fun i => g (i + 1)) := by
      rw [List.range_succ_eq_map]
      simp [List.map_map, Function.comp_def]
    have h2 : (List.range (K + 1)).map (fun i => g (i + 1)) =
        g 1 :: (List.range K).map (fun i => g (i + 2)) := by
      rw [List.range_succ_eq_map]
      simp [List.map_map, Function.comp_def]
    have h3 : (List.range (K + 1)).map
          (fun j => Quad.mk (g j).pos (g j).ctrlRight (g (j + 1)).ctrlLeft (g (j + 1)).pos) =
        Quad.mk (g 0).pos (g 0).ctrlRight (g 1).ctrlLeft (g 1).pos ::
          (List.range K).map
            (fun j => Quad.mk (g (j + 1)).pos (g (j + 1)).ctrlRight
              (g (j + 2)).ctrlLeft (g (j + 2)).pos) := by
      rw [List.range_succ_eq_map]
      simp [List.map_map, Function.comp_def]
    rw [h1, h2, h3]
    have h4 := quadsOfAnchors_range_map K (fun i => g (i + 1))
    rw [h2] at h4
    simp only [quadsOfAnchors]
    rw [h4]

theorem range_map_getD {α : Type} (d : α) :
    ∀ l : List α, (List.range l.length).map (fun j => l.getD j d) = l
  | [] => rfl
  | a :: l => by
    have hstep : (List.range (l.length + 1)).map (fun i => (a :: l).getD i d) =
        a :: (List.range l.length).map (fun i => l.getD i d) := by
      rw [List.range_succ_eq_map]
      simp [List.map_map, Function.comp_def]
    simp only [List.length_cons, hstep]
    rw [range_map_getD d l]

theorem pathFromManimPoints_vertices (pts : List Vec) (cmds : List String) :
    (pathFromManimPoints pts cmds).vertices =
      (List.range (pts.length / 4 + 1)).map (fun j => manimAnchorAt pts (cmds.getD j cmdC) j) :=
  rfl

/-- Rebuilding a path from the flattened coefficients of a chained quad list
recovers exactly those quads (the anchors reassemble segment by segment). -/
theorem quadsOfAnchors_pathFromManimPoints (qs : List Quad) (cmds : List String)
    (hne : qs ≠ []) (hch : List.Chain' (fun q q' : Quad => q.p3 = q'.p0) qs) :
    quadsOfAnchors (pathFromManimPoints (qs.flatMap Quad.toList) cmds).vertices = qs := by
  have hlen : (qs.flatMap Quad.toList).length = 4 * qs.length := flatMap_toList_length qs
  have hK : (qs.flatMap Quad.toList).length / 4 = qs.length := by
    rw [hlen]
    omega
  have hKpos : 1 ≤ qs.length := by
    cases qs with
    | nil => exact absurd rfl hne
    | cons q qs => simp
  rw [pathFromManimPoints_vertices, hK]
  have hne' : qs.length = qs.length - 1 + 1 := by omega
  rw [show qs.length + 1 = (qs.length - 1 + 1) + 1 from by omega]
  rw [quadsOfAnchors_range_map (qs.length - 1 + 1)
    (fun j => manimAnchorAt (qs.flatMap Quad.toList) (cmds.getD j cmdC) j)]
  rw [← hne']
  refine List.ext_getElem (by simp) (fun i hi1 hi2 => ?_)
  have hilen : i < qs.length := by simpa using hi2
  rw [List.getElem_map]
  simp only [List.getElem_range]
  have hgetD : qs.getD i qzero = qs[i] := List.getD_eq_getElem qs qzero hilen
  have hcomp := flatMap_toList_getD qs i hilen
  refine Quad.ext' _ _ ?_ ?_ ?_ ?_
  · show (manimAnchorAt (qs.flatMap Quad.toList) (cmds.getD i cmdC) i).pos = qs[i].p0
    unfold manimAnchorAt manimPosAt
    rw [hK, if_pos hilen]
    rw [hcomp.1, hgetD]
  · show (manimAnchorAt (qs.flatMap Quad.toList) (cmds.getD i cmdC) i).ctrlRight = qs[i].p1
    unfold manimAnchorAt manimCtrlRightAt
    rw [hK, if_pos hilen]
    rw [hcomp.2.1, hgetD]
  · show (manimAnchorAt (qs.flatMap Quad.toList) (cmds.getD (i + 1) cmdC) (i + 1)).ctrlLeft = qs[i].p2
    unfold manimAnchorAt manimCtrlLeftAt
    rw [if_neg (by omega)]
    rw [show 4 * (i + 1) - 2 = 4 * i + 2 from by omega]
    rw [hcomp.2.2.1, hgetD]
  · show (manimAnchorAt (qs.flatMap Quad.toList) (cmds.getD (i + 1) cmdC) (i + 1)).pos = qs[i].p3
    unfold manimAnchorAt manimPosAt
    rw [hK]
    by_cases hi1K : i + 1 < qs.length
    · rw [if_pos hi1K]
      have hcomp1 := flatMap_toList_getD qs (i + 1) hi1K
      rw [hcomp1.1, List.getD_eq_getElem qs qzero hi1K]
      have hchain := List.chain'_iff_get.mp hch i (by omega)
      have hchain' : qs[i].p3 = qs[i + 1].p0 := by
        simpa [List.get_eq_getElem] using hchain
      exact hchain'.symm
    · rw [if_neg hi1K]
      have hiK : i = qs.length - 1 := by omega
      rw [show 4 * qs.length - 1 = 4 * (qs.length - 1) + 3 from by omega]
      have hcomp2 := flatMap_toList_getD qs (qs.length - 1) (by omega)
      rw [hcomp2.2.2.2, List.getD_eq_getElem qs qzero (by omega)]
      subst hiK
      rfl

theorem getManimPoints_eq (p : Path) :
    getManimPoints p = (quadsOfAnchors p.vertices).flatMap Quad.toList := rfl

theorem pathFromManimPoints_commands (pts : List Vec) (cmds : List String)
    (hlen : cmds.length = pts.length / 4 + 1) :
    (pathFromManimPoints pts cmds).vertices.map Anchor.command = cmds := by
  rw [pathFromManimPoints_vertices, List.map_map]
  have h : (Anchor.command ∘ fun j => manimAnchorAt pts (cmds.getD j cmdC) j) =
      fun j => cmds.getD j cmdC := rfl
  rw [h, ← hlen]
  exact range_map_getD cmdC cmds

theorem flatMap_toList_take :
    ∀ (qs : List Quad) (i : ℕ), i ≤ qs.length →
      (qs.take i).flatMap Quad.toList = (qs.flatMap Quad.toList).take (4 * i)
  | _, 0, _ => rfl
  | [], i + 1, h => by simp at h
  | q :: qs, i + 1, h => by
    have hRHS : ((q :: qs).flatMap Quad.toList).take (4 * (i + 1)) =
        Quad.toList q ++ (qs.flatMap Quad.toList).take (4 * i) := by
      simp only [List.flatMap_cons]
      rw [List.take_append_eq_append_take,
        List.take_of_length_le
          (show (Quad.toList q).length ≤ 4 * (i + 1) from by rw [quad_toList_length]; omega),
        show 4 * (i + 1) - (Quad.toList q).length = 4 * i from by rw [quad_toList_length]; omega]
    rw [List.take_succ_cons]
    have hL : (q :: qs.take i).flatMap Quad.toList =
        Quad.toList q ++ (qs.take i).flatMap Quad.toList := by
      simp
    rw [hL, flatMap_toList_take qs i (by simpa using h), hRHS]

theorem integerInterpolate_fst_lt (n : ℕ) (hn : 1 ≤ n) (t : ℚ) :
    (integerInterpolate 0 n t).1 < n := by
  unfold integerInterpolate
  split_ifs
  · simpa using by omega
  · simpa using by omega
  · simp only
    exact lt_of_le_of_lt (min_le_right _ _) (by omega)

theorem pointwiseBecomePartial_eval (other : Path) (a b : ℚ) :
    pointwiseBecomePartial other a b =
      Path.mk (pathFromManimPoints
        (((quadsOfAnchors other.vertices).take
            (integerInterpolate 0 (quadsOfAnchors other.vertices).length b).1 ++
          (if (integerInterpolate 0 (quadsOfAnchors other.vertices).length b).1 <
              (quadsOfAnchors other.vertices).length then
            [splitBezier
              ((quadsOfAnchors other.vertices).getD
                (integerInterpolate 0 (quadsOfAnchors other.vertices).length b).1 qzero)
              (integerInterpolate 0 (quadsOfAnchors other.vertices).length b).2]
          else [])).flatMap Quad.toList)
        ((other.vertices.take
          (((quadsOfAnchors other.vertices).take
              (integerInterpolate 0 (quadsOfAnchors other.vertices).length b).1 ++
            (if (integerInterpolate 0 (quadsOfAnchors other.vertices).length b).1 <
                (quadsOfAnchors other.vertices).length then
              [splitBezier
                ((quadsOfAnchors other.vertices).getD
                  (integerInterpolate 0 (quadsOfAnchors other.vertices).length b).1 qzero)
                (integerInterpolate 0 (quadsOfAnchors other.vertices).length b).2]
            else [])).length + 1)).map Anchor.command)).vertices false := by
  simp only [pointwiseBecomePartial, getManimPoints, chunk4_flatMap]

/-- The partial-path extraction, fully characterized: the result is open, the
cut index is a valid segment index, the anchor count is `bIndex + 2`, the
flattened geometry is the source's first `bIndex` segments verbatim followed
by the left half of the split of segment `bIndex` at `bResidue`, and the
command tags are the matching prefix of the source's. -/
theorem pointwiseBecomePartial_spec (other : Path) (b : ℚ)
    (hn : 1 ≤ (quadsOfAnchors other.vertices).length) :
    (pointwiseBecomePartial other 0 b).closed = false ∧
    (integerInterpolate 0 (quadsOfAnchors other.vertices).length b).1 <
      (quadsOfAnchors other.vertices).length ∧
    (pointwiseBecomePartial other 0 b).vertices.length =
      (integerInterpolate 0 (quadsOfAnchors other.vertices).length b).1 + 2 ∧
    getManimPoints (pointwiseBecomePartial other 0 b) =
      (getManimPoints other).take
          (4 * (integerInterpolate 0 (quadsOfAnchors other.vertices).length b).1) ++
        Quad.toList (splitBezier
          ((quadsOfAnchors other.vertices).getD
            (integerInterpolate 0 (quadsOfAnchors other.vertices).length b).1 qzero)
          (integerInterpolate 0 (quadsOfAnchors other.vertices).length b).2) ∧
    (pointwiseBecomePartial other 0 b).vertices.map Anchor.command =
      (other.vertices.map Anchor.command).take
        ((integerInterpolate 0 (quadsOfAnchors other.vertices).length b).1 + 2) := by
  have hch0 := quadsOfAnchors_chain' other.vertices
  have hql0 := quadsOfAnchors_length other.vertices
  set qs := quadsOfAnchors other.vertices with hqs
  set ir := integerInterpolate 0 qs.length b with hirdef
  have hlt : ir.1 < qs.length := integerInterpolate_fst_lt qs.length hn b
  have hvl : other.vertices.length = qs.length + 1 := by omega
  set qs' := qs.take ir.1 ++ [splitBezier (qs.getD ir.1 qzero) ir.2] with hqs'
  have hql : qs'.length = ir.1 + 1 := by
    rw [hqs', List.length_append, List.length_take]
    simp only [List.length_cons, List.length_nil]
    omega
  have hne' : qs' ≠ [] := by
    rw [hqs']
    simp
  have hch' : List.Chain' (fun q q' : Quad => q.p3 = q'.p0) qs' := by
    rw [hqs', List.chain'_append]
    refine ⟨hch0.take _, List.chain'_singleton _, fun x hx y hy => ?_⟩
    have hy' : y = splitBezier (qs.getD ir.1 qzero) ir.2 := by
      simp only [List.head?_cons, Option.mem_def, Option.some.injEq] at hy
      exact hy.symm
    by_cases h0 : ir.1 = 0
    · rw [h0] at hx
      simp at hx
    · have hlen : (qs.take ir.1).length = ir.1 := by
        rw [List.length_take]
        omega
      rw [List.getLast?_eq_getElem?, hlen, List.getElem?_take, if_pos (by omega)] at hx
      rw [List.getElem?_eq_getElem (show ir.1 - 1 < qs.length from by omega)] at hx
      have hx' : x = qs[ir.1 - 1] := by
        have := hx
        simp only [Option.mem_def, Option.some.injEq] at this
        exact this.symm
      have hchain := List.chain'_iff_get.mp hch0 (ir.1 - 1) (by omega)
      have hchain' : qs[ir.1 - 1].p3 = qs[ir.1 - 1 + 1].p0 := by
        simpa [List.get_eq_getElem] using hchain
      have h11 : ir.1 - 1 + 1 = ir.1 := by omega
      simp only [h11] at hchain'
      rw [hx', hy', splitBezier_p0]
      rw [List.getD_eq_getElem qs qzero hlt]
      exact hchain'
  have hflatlen : (qs'.flatMap Quad.toList).length = 4 * (ir.1 + 1) := by
    rw [flatMap_toList_length, hql]
  have hKval : (qs'.flatMap Quad.toList).length / 4 = ir.1 + 1 := by
    rw [hflatlen]
    omega
  have hcmdlen : ((other.vertices.take (qs'.length + 1)).map Anchor.command).length = ir.1 + 2 := by
    rw [List.length_map, List.length_take, hql, hvl]
    omega
  have hrt := quadsOfAnchors_pathFromManimPoints qs'
    ((other.vertices.take (qs'.length + 1)).map Anchor.command) hne' hch'
  rw [pointwiseBecomePartial_eval]
  rw [← hqs, ← hirdef, if_pos hlt, ← hqs']
  refine ⟨rfl, hlt, ?_, ?_, ?_⟩
  · show ((List.range ((qs'.flatMap Quad.toList).length / 4 + 1)).map _).length = ir.1 + 2
    rw [List.length_map, List.length_range, hKval]
  · show getManimPoints (Path.mk (pathFromManimPoints (qs'.flatMap Quad.toList) _).vertices false) = _
    rw [getManimPoints_eq]
    simp only
    rw [hrt, hqs']
    rw [show (qs.take ir.1 ++ [splitBezier (qs.getD ir.1 qzero) ir.2]).flatMap Quad.toList =
        (qs.take ir.1).flatMap Quad.toList ++ Quad.toList (splitBezier (qs.getD ir.1 qzero) ir.2)
      from by simp]
    rw [flatMap_toList_take qs ir.1 (by omega)]
    rw [getManimPoints_eq, ← hqs]
  · show (pathFromManimPoints (qs'.flatMap Quad.toList) _).vertices.map Anchor.command = _
    rw [pathFromManimPoints_commands _ _ (by rw [hcmdlen, hKval])]
    rw [List.map_take, hql]

/-- C2: for a path with at least one cubic segment and `b ∈ [0, 1]`,
`pointwiseBecomePartial(other, 0, b)` computes
`(bIndex, bResidue) = integerInterpolate(0, segmentCount, b)`, keeps the whole
segments `[0, bIndex)` of the source verbatim, appends (since
`bIndex < segmentCount` always holds here) only the left half of
`split(quad[bIndex], bResidue)` as the final partial segment, and returns a new
open path (`closed = false`) whose anchor commands mirror the source's
per-vertex command tags. -/
theorem claim_C2 (other : Path) (b : ℚ) (hb0 : 0 ≤ b) (hb1 : b ≤ 1)
    (hn : 1 ≤ (chunk4 (getManimPoints other)).length) :
    (pointwiseBecomePartial other 0 b).closed = false ∧
    (integerInterpolate 0 (chunk4 (getManimPoints other)).length b).1 <
      (chunk4 (getManimPoints other)).length ∧
    (pointwiseBecomePartial other 0 b).vertices.length =
      (integerInterpolate 0 (chunk4 (getManimPoints other)).length b).1 + 2 ∧
    getManimPoints (pointwiseBecomePartial other 0 b) =
      (getManimPoints other).take
          (4 * (integerInterpolate 0 (chunk4 (getManimPoints other)).length b).1) ++
        Quad.toList (splitBezier
          ((chunk4 (getManimPoints other)).getD
            (integerInterpolate 0 (chunk4 (getManimPoints other)).length b).1 qzero)
          (integerInterpolate 0 (chunk4 (getManimPoints other)).length b).2) ∧
    (pointwiseBecomePartial other 0 b).vertices.map Anchor.command =
      (other.vertices.map Anchor.command).take
        ((integerInterpolate 0 (chunk4 (getManimPoints other)).length b).1 + 2) := by
  have hc : chunk4 (getManimPoints other) = quadsOfAnchors other.vertices := by
    rw [getManimPoints_eq, chunk4_flatMap]
  rw [hc] at hn ⊢
  exact pointwiseBecomePartial_spec other b hn

theorem claim_C2_witness :
    ((0 : ℚ) ≤ 1/3 ∧ (1 : ℚ)/3 ≤ 1 ∧
      1 ≤ (chunk4 (getManimPoints (Path.mk [anchorZero, anchorZero, anchorZero] false))).length) ∧
    (pointwiseBecomePartial (Path.mk [anchorZero, anchorZero, anchorZero] false) 0 (1/3)).closed =
      false ∧
    (pointwiseBecomePartial (Path.mk [anchorZero, anchorZero, anchorZero] false) 0
        (1/3)).vertices.length =
      (integerInterpolate 0
        (chunk4 (getManimPoints (Path.mk [anchorZero, anchorZero, anchorZero] false))).length
        (1/3)).1 + 2 :=
  ⟨⟨by norm_num, by norm_num, by decide⟩,
   (claim_C2 (Path.mk [anchorZero, anchorZero, anchorZero] false) (1/3) (by norm_num)
     (by norm_num) (by decide)).1,
   (claim_C2 (Path.mk [anchorZero, anchorZero, anchorZero] false) (1/3) (by norm_num)
     (by norm_num) (by decide)).2.2.1⟩

/-- Completing the reveal (`b = 1`) reproduces the source geometry exactly:
the cut index is the last segment and the left half of a split at 1 is the
whole segment. -/
theorem pointwiseBecomePartial_full (other : Path)
    (hn : 1 ≤ (quadsOfAnchors other.vertices).length) :
    getManimPoints (pointwiseBecomePartial other 0 1) = getManimPoints other := by
  have hs := (pointwiseBecomePartial_spec other 1 hn).2.2.2.1
  have hir : integerInterpolate 0 (quadsOfAnchors other.vertices).length 1 =
      ((quadsOfAnchors other.vertices).length - 1, 1) := by
    unfold integerInterpolate
    rw [if_pos le_rfl]
  rw [hir] at hs
  simp only at hs
  rw [hs, splitBezier_one]
  set qs := quadsOfAnchors other.vertices with hqs
  have hne : qs ≠ [] := by
    intro h
    rw [h] at hn
    simp at hn
  have hsplit : qs.take (qs.length - 1) ++ [qs.getD (qs.length - 1) qzero] = qs := by
    have h1 : qs.dropLast ++ [qs.getLast hne] = qs := List.dropLast_append_getLast hne
    rw [List.dropLast_eq_take, List.getLast_eq_getElem qs hne] at h1
    rw [List.getD_eq_getElem qs qzero (by omega)]
    exact h1
  have hflat : (qs.take (qs.length - 1)).flatMap Quad.toList ++
      Quad.toList (qs.getD (qs.length - 1) qzero) = qs.flatMap Quad.toList := by
    calc (qs.take (qs.length - 1)).flatMap Quad.toList ++
        Quad.toList (qs.getD (qs.length - 1) qzero)
        = (qs.take (qs.length - 1) ++ [qs.getD (qs.length - 1) qzero]).flatMap Quad.toList := by
          simp
      _ = qs.flatMap Quad.toList := by rw [hsplit]
  rw [getManimPoints_eq, ← hqs, ← flatMap_toList_take qs (qs.length - 1) (by omega), hflat]

/-- C8: the Write variant's per-node step: for sub-alpha `≤ 0.5` the node's
path becomes the partial reveal of the starting node's path over
`[0, 2·alpha]` (style untouched); for sub-alpha `> 0.5` the node's fill
opacity is set to `2·alpha − 1`, and the partial reveal is completed when the
last anchors differ — completing it reproduces the starting node's full
geometry — and left alone when they already agree. -/
theorem claim_C8 (alpha : ℚ) (submob starting : Path × Style) :
    (alpha ≤ 1/2 →
      writeInterpolateSubmobject alpha submob starting =
        (pointwiseBecomePartial starting.1 0 (2 * alpha), submob.2)) ∧
    (1/2 < alpha →
      (writeInterpolateSubmobject alpha submob starting).2.fillOpacity = 2 * alpha - 1 ∧
      (lastPos submob.1 ≠ lastPos starting.1 →
        (writeInterpolateSubmobject alpha submob starting).1 =
          pointwiseBecomePartial starting.1 0 1) ∧
      (lastPos submob.1 = lastPos starting.1 →
        (writeInterpolateSubmobject alpha submob starting).1 = submob.1) ∧
      (1 ≤ (quadsOfAnchors starting.1.vertices).length →
        getManimPoints (pointwiseBecomePartial starting.1 0 1) =
          getManimPoints starting.1)) := by
  refine ⟨fun h => ?_, fun h => ⟨?_, fun hne => ?_, fun heq => ?_,
    fun hn => pointwiseBecomePartial_full starting.1 hn⟩⟩
  · unfold writeInterpolateSubmobject
    rw [if_pos h]
  · unfold writeInterpolateSubmobject
    rw [if_neg (by linarith)]
    rfl
  · unfold writeInterpolateSubmobject
    rw [if_neg (by linarith)]
    simp only [if_pos hne]
  · unfold writeInterpolateSubmobject
    rw [if_neg (by linarith)]
    simp only [heq, ne_eq, not_true_eq_false, if_false]

theorem claim_C8_witness :
    ((1 : ℚ)/4 ≤ 1/2 ∧
      writeInterpolateSubmobject (1/4) (Path.mk [anchorZero, anchorZero] false, defaultStyle)
          (Path.mk [anchorZero, anchorZero] false, defaultStyle) =
        (pointwiseBecomePartial (Path.mk [anchorZero, anchorZero] false) 0 (2 * (1/4)),
         defaultStyle)) ∧
    ((1 : ℚ)/2 < 3/4 ∧
      (writeInterpolateSubmobject (3/4) (Path.mk [anchorZero, anchorZero] false, defaultStyle)
          (Path.mk [anchorZero, anchorZero] false, defaultStyle)).2.fillOpacity =
        2 * (3/4) - 1) :=
  ⟨⟨by norm_num,
    (claim_C8 (1/4) (Path.mk [anchorZero, anchorZero] false, defaultStyle)
      (Path.mk [anchorZero, anchorZero] false, defaultStyle)).1 (by norm_num)⟩,
   ⟨by norm_num,
    ((claim_C8 (3/4) (Path.mk [anchorZero, anchorZero] false, defaultStyle)
      (Path.mk [anchorZero, anchorZero] false, defaultStyle)).2 (by norm_num)).1⟩⟩

/-! ## Point alignment at the path level (towards C1 and C3) -/

@[simp] theorem withPath_self (m : Mob) : m.withPath m.path = m := by
  cases m
  rfl

theorem path_eta (p : Path) : Path.mk p.vertices p.closed = p := rfl

theorem anchorsFromManim_nil : anchorsFromManim [] = [anchorZero] := rfl

theorem setAnchorsFromPoints_closed (p : Path) (pts : List Vec) :
    (setAnchorsFromPoints p pts).closed = p.closed := rfl

theorem addPointsPath_fst_closed (p : Path) (n : ℕ) :
    (addPointsPath p n).1.closed = p.closed := by
  unfold addPointsPath
  by_cases h : p.vertices.length = 1
  · simp only [if_pos h]
  · simp only [if_neg h]

theorem addPointsPath_snd_one (p : Path) (hp : p.vertices.length = 1) (n : ℕ) :
    (addPointsPath p n).2 = [] := by
  simp only [addPointsPath, hp]
  simp

/-- The wipe: growing a single-anchor path returns no coefficient points, and
the caller's `setAnchorsFromPoints` therefore resets the path to one default
anchor at the origin. -/
theorem addPointsPath_wipe (p : Path) (hp : p.vertices.length = 1) (n : ℕ) :
    setAnchorsFromPoints (addPointsPath p n).1 (addPointsPath p n).2 =
      Path.mk [anchorZero] p.closed := by
  rw [addPointsPath_snd_one p hp n]
  unfold setAnchorsFromPoints
  rw [anchorsFromManim_nil, addPointsPath_fst_closed]

theorem setAnchorsFromPoints_pos (p : Path) (pts : List Vec) :
    1 ≤ (setAnchorsFromPoints p pts).vertices.length := by
  rw [setAnchorsFromPoints_length]
  omega

theorem alignPointsPaths_of_eq (p q : Path) (c : Vec)
    (h : p.vertices.length = q.vertices.length) : alignPointsPaths p q c = (p, q) := by
  unfold alignPointsPaths
  rw [if_pos h]

/-- Growing the fewer side of a genuinely multi-anchor path equalizes the
point counts exactly (the spec's point-count alignment). -/
theorem addPoints_growth (p : Path) (n : ℕ) (h : 2 ≤ p.vertices.length) :
    (setAnchorsFromPoints (addPointsPath p n).1 (addPointsPath p n).2).vertices.length =
      p.vertices.length + n := by
  rw [setAnchorsFromPoints_length, addPointsPath_snd_length p n h,
    Nat.mul_div_cancel_left _ (by norm_num)]
  omega

theorem alignPointsPaths_expand (p q : Path) (c : Vec)
    (h : ¬ p.vertices.length = q.vertices.length) :
    alignPointsPaths p q c =
      (let p1 := if p.vertices.length = 0 then Path.mk [centerAnchor c] p.closed else p
       let q1 := if q.vertices.length = 0 then Path.mk [centerAnchor c] q.closed else q
       if p1.vertices.length < q1.vertices.length then
         (setAnchorsFromPoints (addPointsPath p1 (q1.vertices.length - p1.vertices.length)).1
            (addPointsPath p1 (q1.vertices.length - p1.vertices.length)).2, q1)
       else
         (p1, setAnchorsFromPoints (addPointsPath q1 (p1.vertices.length - q1.vertices.length)).1
            (addPointsPath q1 (p1.vertices.length - q1.vertices.length)).2)) := by
  unfold alignPointsPaths
  rw [if_neg h]

/-- The growth branch of `alignPoints`, on already-seeded paths: either the
counts end up equal, or the grown side was a single anchor and got wiped to
one default anchor while the other side has at least two. -/
theorem grow_out (p1 q1 : Path) (hp1 : 1 ≤ p1.vertices.length) (hq1 : 1 ≤ q1.vertices.length) :
    ((if p1.vertices.length < q1.vertices.length then
        (setAnchorsFromPoints (addPointsPath p1 (q1.vertices.length - p1.vertices.length)).1
           (addPointsPath p1 (q1.vertices.length - p1.vertices.length)).2, q1)
      else
        (p1, setAnchorsFromPoints (addPointsPath q1 (p1.vertices.length - q1.vertices.length)).1
           (addPointsPath q1 (p1.vertices.length - q1.vertices.length)).2)) :
      Path × Path).1.vertices.length =
      ((if p1.vertices.length < q1.vertices.length then
        (setAnchorsFromPoints (addPointsPath p1 (q1.vertices.length - p1.vertices.length)).1
           (addPointsPath p1 (q1.vertices.length - p1.vertices.length)).2, q1)
      else
        (p1, setAnchorsFromPoints (addPointsPath q1 (p1.vertices.length - q1.vertices.length)).1
           (addPointsPath q1 (p1.vertices.length - q1.vertices.length)).2)) :
      Path × Path).2.vertices.length ∨
    (((if p1.vertices.length < q1.vertices.length then
        (setAnchorsFromPoints (addPointsPath p1 (q1.vertices.length - p1.vertices.length)).1
           (addPointsPath p1 (q1.vertices.length - p1.vertices.length)).2, q1)
      else
        (p1, setAnchorsFromPoints (addPointsPath q1 (p1.vertices.length - q1.vertices.length)).1
           (addPointsPath q1 (p1.vertices.length - q1.vertices.length)).2)) :
      Path × Path).1.vertices = [anchorZero] ∧
      2 ≤ ((if p1.vertices.length < q1.vertices.length then
        (setAnchorsFromPoints (addPointsPath p1 (q1.vertices.length - p1.vertices.length)).1
           (addPointsPath p1 (q1.vertices.length - p1.vertices.length)).2, q1)
      else
        (p1, setAnchorsFromPoints (addPointsPath q1 (p1.vertices.length - q1.vertices.length)).1
           (addPointsPath q1 (p1.vertices.length - q1.vertices.length)).2)) :
      Path × Path).2.vertices.length) ∨
    (((if p1.vertices.length < q1.vertices.length then
        (setAnchorsFromPoints (addPointsPath p1 (q1.vertices.length - p1.vertices.length)).1
           (addPointsPath p1 (q1.vertices.length - p1.vertices.length)).2, q1)
      else
        (p1, setAnchorsFromPoints (addPointsPath q1 (p1.vertices.length - q1.vertices.length)).1
           (addPointsPath q1 (p1.vertices.length - q1.vertices.length)).2)) :
      Path × Path).2.vertices = [anchorZero] ∧
      2 ≤ ((if p1.vertices.length < q1.vertices.length then
        (setAnchorsFromPoints (addPointsPath p1 (q1.vertices.length - p1.vertices.length)).1
           (addPointsPath p1 (q1.vertices.length - p1.vertices.length)).2, q1)
      else
        (p1, setAnchorsFromPoints (addPointsPath q1 (p1.vertices.length - q1.vertices.length)).1
           (addPointsPath q1 (p1.vertices.length - q1.vertices.length)).2)) :
      Path × Path).1.vertices.length) := by
  by_cases hlt : p1.vertices.length < q1.vertices.length
  · rw [if_pos hlt]
    by_cases hp1one : p1.vertices.length = 1
    · right
      left
      rw [addPointsPath_wipe p1 hp1one _]
      refine ⟨rfl, ?_⟩
      show 2 ≤ q1.vertices.length
      omega
    · left
      show (setAnchorsFromPoints _ _).vertices.length = q1.vertices.length
      rw [addPoints_growth p1 _ (by omega)]
      omega
  · rw [if_neg hlt]
    by_cases hq1one : q1.vertices.length = 1
    · by_cases hp1one : p1.vertices.length = 1
      · left
        show p1.vertices.length = (setAnchorsFromPoints _ _).vertices.length
        rw [addPointsPath_wipe q1 hq1one _]
        rw [hp1one]
        rfl
      · right
        right
        rw [addPointsPath_wipe q1 hq1one _]
        refine ⟨rfl, ?_⟩
        show 2 ≤ p1.vertices.length
        omega
    · left
      show p1.vertices.length = (setAnchorsFromPoints _ _).vertices.length
      rw [addPoints_growth q1 _ (by omega)]
      omega

/-- What `alignPoints` leaves behind: either the two point counts agree, or
the side that was grown from a single anchor was wiped to one default anchor
while the other side has at least two. -/
theorem alignPointsPaths_out (p q : Path) (c : Vec) :
    (alignPointsPaths p q c).1.vertices.length = (alignPointsPaths p q c).2.vertices.length ∨
    ((alignPointsPaths p q c).1.vertices = [anchorZero] ∧
      2 ≤ (alignPointsPaths p q c).2.vertices.length) ∨
    ((alignPointsPaths p q c).2.vertices = [anchorZero] ∧
      2 ≤ (alignPointsPaths p q c).1.vertices.length) := by
  by_cases h : p.vertices.length = q.vertices.length
  · left
    rw [alignPointsPaths_of_eq p q c h]
    exact h
  · rw [alignPointsPaths_expand p q c h]
    have hp1 : 1 ≤ (if p.vertices.length = 0 then Path.mk [centerAnchor c] p.closed
        else p).vertices.length := by
      by_cases h0 : p.vertices.length = 0
      · rw [if_pos h0]
        simp
      · rw [if_neg h0]
        omega
    have hq1 : 1 ≤ (if q.vertices.length = 0 then Path.mk [centerAnchor c] q.closed
        else q).vertices.length := by
      by_cases h0 : q.vertices.length = 0
      · rw [if_pos h0]
        simp
      · rw [if_neg h0]
        omega
    exact grow_out _ _ hp1 hq1

/-- A pair left by `alignPoints` with a wiped first component is a fixed
point of `alignPoints` (re-running recomputes the same wipe). -/
theorem alignPointsPaths_wiped_fst (r1 r2 : Path) (c2 : Vec)
    (h1 : r1.vertices = [anchorZero]) (h2 : 2 ≤ r2.vertices.length) :
    alignPointsPaths r1 r2 c2 = (r1, r2) := by
  have hl1 : r1.vertices.length = 1 := by
    rw [h1]
    rfl
  unfold alignPointsPaths
  rw [if_neg (by omega)]
  simp only [if_neg (show ¬ r1.vertices.length = 0 by omega),
    if_neg (show ¬ r2.vertices.length = 0 by omega)]
  rw [if_pos (show r1.vertices.length < r2.vertices.length by omega)]
  rw [addPointsPath_wipe r1 hl1 _]
  rw [show Path.mk [anchorZero] r1.closed = Path.mk r1.vertices r1.closed from by rw [h1]]

theorem alignPointsPaths_wiped_snd (r1 r2 : Path) (c2 : Vec)
    (h2 : r2.vertices = [anchorZero]) (h1 : 2 ≤ r1.vertices.length) :
    alignPointsPaths r1 r2 c2 = (r1, r2) := by
  have hl2 : r2.vertices.length = 1 := by
    rw [h2]
    rfl
  unfold alignPointsPaths
  rw [if_neg (by omega)]
  simp only [if_neg (show ¬ r1.vertices.length = 0 by omega),
    if_neg (show ¬ r2.vertices.length = 0 by omega)]
  rw [if_neg (show ¬ r1.vertices.length < r2.vertices.length by omega)]
  rw [addPointsPath_wipe r2 hl2 _]
  rw [show Path.mk [anchorZero] r2.closed = Path.mk r2.vertices r2.closed from by rw [h2]]

/-- `alignPoints` is idempotent at the path level: its output pair is a fixed
point of the path-level computation, for any pixel center. -/
theorem alignPointsPaths_fix (p q : Path) (c c2 : Vec) :
    alignPointsPaths (alignPointsPaths p q c).1 (alignPointsPaths p q c).2 c2 =
      ((alignPointsPaths p q c).1, (alignPointsPaths p q c).2) := by
  rcases alignPointsPaths_out p q c with h | ⟨h1, h2⟩ | ⟨h2, h1⟩
  · exact alignPointsPaths_of_eq _ _ _ h
  · exact alignPointsPaths_wiped_fst _ _ _ h1 h2
  · exact alignPointsPaths_wiped_snd _ _ _ h2 h1

/-! ## Stage lemmas on the mobject tree -/

theorem alignPoints_eq (x y : Mob) :
    alignPoints x y =
      (x.withPath (alignPointsPaths x.path y.path (getPixelCenter x)).1,
       y.withPath (alignPointsPaths x.path y.path (getPixelCenter x)).2) := rfl

theorem alignPoints_fst_submobjects (x y : Mob) :
    (alignPoints x y).1.submobjects = x.submobjects := by
  rw [alignPoints_eq]
  simp

theorem alignPoints_snd_submobjects (x y : Mob) :
    (alignPoints x y).2.submobjects = y.submobjects := by
  rw [alignPoints_eq]
  simp

theorem nullPointAlign_of_counts (x y : Mob)
    (h : x.points.length = y.points.length ∨ (1 ≤ x.points.length ∧ 1 ≤ y.points.length)) :
    nullPointAlign x y = (x, y) := by
  unfold nullPointAlign
  rw [if_neg (by omega), if_neg (by omega)]

theorem alignSubmobjects_of_eq (x y : Mob) (h : x.submobjects.length = y.submobjects.length) :
    alignSubmobjects x y = (x, y) := by
  unfold alignSubmobjects
  rw [if_pos h]

theorem alignSubmobjects_lengths (x y : Mob) :
    (alignSubmobjects x y).1.submobjects.length =
      (alignSubmobjects x y).2.submobjects.length := by
  unfold alignSubmobjects
  by_cases h : x.submobjects.length = y.submobjects.length
  · rw [if_pos h]
    exact h
  · rw [if_neg h]
    by_cases hlt : x.submobjects.length < y.submobjects.length
    · rw [if_pos hlt]
      show (addSubmobjects x _).submobjects.length = y.submobjects.length
      rw [addSubmobjects_length]
      omega
    · rw [if_neg hlt]
      show x.submobjects.length = (addSubmobjects y _).submobjects.length
      rw [addSubmobjects_length]
      omega

theorem addPointMobjects_path : ∀ (n : ℕ) (m : Mob), (addPointMobjects m n).path = m.path
  | 0, _ => rfl
  | n + 1, m => by
    show (addPointMobjects _ n).path = _
    rw [addPointMobjects_path n]
    simp

theorem addSubmobjects_path (m : Mob) (n : ℕ) : (addSubmobjects m n).path = m.path := by
  unfold addSubmobjects
  by_cases h : m.submobjects.length = 0
  · rw [if_pos h, addPointMobjects_path]
  · rw [if_neg h]
    simp

theorem alignSubmobjects_fst_path (x y : Mob) : (alignSubmobjects x y).1.path = x.path := by
  unfold alignSubmobjects
  by_cases h : x.submobjects.length = y.submobjects.length
  · rw [if_pos h]
  · rw [if_neg h]
    by_cases hlt : x.submobjects.length < y.submobjects.length
    · rw [if_pos hlt]
      exact addSubmobjects_path x _
    · rw [if_neg hlt]

theorem alignSubmobjects_snd_path (x y : Mob) : (alignSubmobjects x y).2.path = y.path := by
  unfold alignSubmobjects
  by_cases h : x.submobjects.length = y.submobjects.length
  · rw [if_pos h]
  · rw [if_neg h]
    by_cases hlt : x.submobjects.length < y.submobjects.length
    · rw [if_pos hlt]
    · rw [if_neg hlt]
      exact addSubmobjects_path y _

/-! ## Depth lemmas -/

theorem depth_mk (p : Path) (s : Style) (subs : List Mob) :
    Mob.depth (Mob.mk p s subs) = depthList subs := by
  simp [Mob.depth]

theorem depthList_nil : depthList [] = 0 := by
  simp [depthList]

theorem depthList_cons (m : Mob) (rest : List Mob) :
    depthList (m :: rest) = max (Mob.depth m + 1) (depthList rest) := by
  simp [depthList]

theorem depth_subs (m : Mob) : Mob.depth m = depthList m.submobjects := by
  cases m
  rw [depth_mk]
  rfl

theorem depthList_mem (a : Mob) : ∀ l : List Mob, a ∈ l → Mob.depth a + 1 ≤ depthList l
  | m :: rest, h => by
    rw [depthList_cons]
    rcases List.mem_cons.mp h with h2 | h2
    · rw [h2]
      omega
    · have := depthList_mem a rest h2
      omega

theorem depth_withSubmobjects (m : Mob) (l : List Mob) :
    Mob.depth (m.withSubmobjects l) = depthList l := by
  cases m
  rw [Mob.withSubmobjects, depth_mk]

theorem depth_withPath (m : Mob) (p : Path) : Mob.depth (m.withPath p) = Mob.depth m := by
  cases m
  rw [Mob.withPath, depth_mk, depth_mk]

theorem depth_withStyle (m : Mob) (s : Style) : Mob.depth (m.withStyle s) = Mob.depth m := by
  cases m
  rw [Mob.withStyle, depth_mk, depth_mk]

theorem depth_leaf (p : Path) (s : Style) : Mob.depth (Mob.mk p s []) = 0 := by
  rw [depth_mk, depthList_nil]

theorem subs_of_depth_zero (m : Mob) (h : Mob.depth m = 0) : m.submobjects = [] := by
  cases m with
  | mk p s subs =>
    rw [depth_mk] at h
    cases subs with
    | nil => rfl
    | cons a l =>
      rw [depthList_cons] at h
      omega

/-! ## Depth bounds for the children created by the alignment stages -/

theorem getPointMobject_depth (m : Mob) : Mob.depth (getPointMobject m) = 0 := by
  unfold getPointMobject
  exact depth_leaf _ _

theorem pushSelf_subs_depth (m : Mob) :
    ∀ a ∈ (pushSelfIntoSubmobjects m).submobjects, Mob.depth a + 1 ≤ max (Mob.depth m) 1 := by
  intro a ha
  unfold pushSelfIntoSubmobjects at ha
  simp only [Mob.submobjects] at ha
  rcases List.mem_append.mp ha with h | h
  · have h1 := depthList_mem a m.submobjects h
    have h2 := depth_subs m
    omega
  · have h1 : a = Mob.mk m.path m.style [] := by simpa using h
    rw [h1, depth_leaf]
    omega

theorem nullPointAlign_fst_subs_depth (x y : Mob) :
    ∀ a ∈ (nullPointAlign x y).1.submobjects, Mob.depth a + 1 ≤ max (Mob.depth x) 1 := by
  unfold nullPointAlign
  split_ifs with h1 h2 <;> intro a ha
  · have h3 := depthList_mem a x.submobjects ha
    have h4 := depth_subs x
    omega
  · exact pushSelf_subs_depth x a ha
  · have h3 := depthList_mem a x.submobjects ha
    have h4 := depth_subs x
    omega

theorem nullPointAlign_snd_subs_depth (x y : Mob) :
    ∀ a ∈ (nullPointAlign x y).2.submobjects, Mob.depth a + 1 ≤ max (Mob.depth y) 1 := by
  unfold nullPointAlign
  split_ifs with h1 h2 <;> intro a ha
  · exact pushSelf_subs_depth y a ha
  · have h3 := depthList_mem a y.submobjects ha
    have h4 := depth_subs y
    omega
  · have h3 := depthList_mem a y.submobjects ha
    have h4 := depth_subs y
    omega

theorem makeTransparent_depth (m : Mob) : Mob.depth (makeTransparent m) = Mob.depth m := by
  unfold makeTransparent
  rw [depth_withStyle]

theorem addPointMobjects_subs_mem : ∀ (n : ℕ) (m : Mob) (a : Mob),
    a ∈ (addPointMobjects m n).submobjects → a ∈ m.submobjects ∨ Mob.depth a = 0
  | 0, _, _, h => Or.inl h
  | n + 1, m, a, h => by
    rcases addPointMobjects_subs_mem n _ a h with h2 | h2
    · simp only [withSubmobjects_submobjects] at h2
      rcases List.mem_append.mp h2 with h3 | h3
      · exact Or.inl h3
      · have h4 : a = getPointMobject m := by simpa using h3
        rw [h4]
        exact Or.inr (getPointMobject_depth m)
    · exact Or.inr h2

theorem addSubmobjects_subs_char (m : Mob) (n : ℕ) :
    ∀ a ∈ (addSubmobjects m n).submobjects,
      (∃ b ∈ m.submobjects, Mob.depth a = Mob.depth b) ∨ Mob.depth a = 0 := by
  intro a ha
  unfold addSubmobjects at ha
  by_cases h : m.submobjects.length = 0
  · rw [if_pos h] at ha
    rcases addPointMobjects_subs_mem n m a ha with h2 | h2
    · exact Or.inl ⟨a, h2, rfl⟩
    · exact Or.inr h2
  · rw [if_neg h] at ha
    simp only [withSubmobjects_submobjects] at ha
    rcases List.mem_flatMap.mp ha with ⟨z, hz, hmem⟩
    have hz1 : z.1 ∈ m.submobjects := (List.of_mem_zip hz).1
    rcases List.mem_cons.mp hmem with h3 | h3
    · exact Or.inl ⟨z.1, hz1, by rw [h3]⟩
    · have h4 : a = makeTransparent z.1 := List.eq_of_mem_replicate h3
      exact Or.inl ⟨z.1, hz1, by rw [h4, makeTransparent_depth]⟩

theorem alignSubmobjects_fst_subs_char (x y : Mob) :
    ∀ a ∈ (alignSubmobjects x y).1.submobjects,
      (∃ b ∈ x.submobjects, Mob.depth a = Mob.depth b) ∨ Mob.depth a = 0 := by
  unfold alignSubmobjects
  by_cases h : x.submobjects.length = y.submobjects.length
  · rw [if_pos h]
    intro a ha
    exact Or.inl ⟨a, ha, rfl⟩
  · rw [if_neg h]
    by_cases hlt : x.submobjects.length < y.submobjects.length
    · rw [if_pos hlt]
      exact addSubmobjects_subs_char x _
    · rw [if_neg hlt]
      intro a ha
      exact Or.inl ⟨a, ha, rfl⟩

theorem alignSubmobjects_snd_subs_char (x y : Mob) :
    ∀ a ∈ (alignSubmobjects x y).2.submobjects,
      (∃ b ∈ y.submobjects, Mob.depth a = Mob.depth b) ∨ Mob.depth a = 0 := by
  unfold alignSubmobjects
  by_cases h : x.submobjects.length = y.submobjects.length
  · rw [if_pos h]
    intro a ha
    exact Or.inl ⟨a, ha, rfl⟩
  · rw [if_neg h]
    by_cases hlt : x.submobjects.length < y.submobjects.length
    · rw [if_pos hlt]
      intro a ha
      exact Or.inl ⟨a, ha, rfl⟩
    · rw [if_neg hlt]
      exact addSubmobjects_subs_char y _

/-! ## The combined alignment stages -/

/-- Everything the three stages of `alignData` guarantee before the recursion:
equal child counts, child depths bounded one below the parents, point counts
either equal or both positive, and path-level idempotence of `alignPoints`. -/
theorem steps_facts (x y : Mob) :
    let r2 := alignSubmobjects (nullPointAlign x y).1 (nullPointAlign x y).2
    let r3 := alignPoints r2.1 r2.2
    r3.1.submobjects.length = r3.2.submobjects.length ∧
    (∀ a ∈ r3.1.submobjects, Mob.depth a + 1 ≤ max (Mob.depth x) 1) ∧
    (∀ b ∈ r3.2.submobjects, Mob.depth b + 1 ≤ max (Mob.depth y) 1) ∧
    (r3.1.points.length = r3.2.points.length ∨
      (1 ≤ r3.1.points.length ∧ 1 ≤ r3.2.points.length)) ∧
    (∀ c2 : Vec, alignPointsPaths r3.1.path r3.2.path c2 = (r3.1.path, r3.2.path)) := by
  intro r2 r3
  have hsub1 : r3.1.submobjects = r2.1.submobjects := alignPoints_fst_submobjects _ _
  have hsub2 : r3.2.submobjects = r2.2.submobjects := alignPoints_snd_submobjects _ _
  have e1 : r3.1.points = (alignPointsPaths r2.1.path r2.2.path (getPixelCenter r2.1)).1.vertices := by
    show ((alignPoints r2.1 r2.2).1).points = _
    rw [alignPoints_eq]
    simp
  have e2 : r3.2.points = (alignPointsPaths r2.1.path r2.2.path (getPixelCenter r2.1)).2.vertices := by
    show ((alignPoints r2.1 r2.2).2).points = _
    rw [alignPoints_eq]
    simp
  have e3 : r3.1.path = (alignPointsPaths r2.1.path r2.2.path (getPixelCenter r2.1)).1 := by
    show ((alignPoints r2.1 r2.2).1).path = _
    rw [alignPoints_eq]
    simp
  have e4 : r3.2.path = (alignPointsPaths r2.1.path r2.2.path (getPixelCenter r2.1)).2 := by
    show ((alignPoints r2.1 r2.2).2).path = _
    rw [alignPoints_eq]
    simp
  refine ⟨?_, ?_, ?_, ?_, ?_⟩
  · rw [hsub1, hsub2]
    exact alignSubmobjects_lengths _ _
  · rw [hsub1]
    intro a ha
    rcases alignSubmobjects_fst_subs_char _ _ a ha with ⟨b, hb, hd⟩ | hd
    · have := nullPointAlign_fst_subs_depth x y b hb
      omega
    · omega
  · rw [hsub2]
    intro a ha
    rcases alignSubmobjects_snd_subs_char _ _ a ha with ⟨b, hb, hd⟩ | hd
    · have := nullPointAlign_snd_subs_depth x y b hb
      omega
    · omega
  · rw [e1, e2]
    rcases alignPointsPaths_out r2.1.path r2.2.path (getPixelCenter r2.1) with h | ⟨ha, hb⟩ | ⟨ha, hb⟩
    · left
      exact h
    · right
      rw [ha]
      constructor
      · simp
      · omega
    · right
      rw [ha]
      constructor
      · omega
      · simp
  · intro c2
    rw [e3, e4]
    exact alignPointsPaths_fix _ _ _ c2

theorem getPointMobject_subs (m : Mob) : (getPointMobject m).submobjects = [] := rfl

theorem pathFromAnchors_single (c : Vec) :
    (pathFromAnchors [c] [c] [c]).vertices = [Anchor.mk c c c cmdC] := rfl

theorem getPointMobject_points_ne (m : Mob) : (getPointMobject m).points ≠ [] := by
  unfold getPointMobject
  show (pathFromAnchors _ _ _).vertices ≠ []
  rw [pathFromAnchors_single]
  simp

theorem addSubmobjects_nil_one (m : Mob) (h : m.submobjects = []) :
    addSubmobjects m 1 = m.withSubmobjects [getPointMobject m] := by
  unfold addSubmobjects
  rw [if_pos (by rw [h]; rfl)]
  show addPointMobjects (m.withSubmobjects (m.submobjects ++ [getPointMobject m])) 0 = _
  rw [h]
  rfl

theorem length_eq_zero_of_eq_nil {α : Type} (l : List α) (h : l = []) : l.length = 0 := by
  rw [h]
  rfl

/-- When both nodes are childless, every child pair the stages create consists
of two childless nodes that both carry points (a pushed-down geometry clone
paired with a fresh point mobject). -/
theorem steps_leaf_char (x y : Mob) (hx : x.submobjects = []) (hy : y.submobjects = []) :
    let r2 := alignSubmobjects (nullPointAlign x y).1 (nullPointAlign x y).2
    let r3 := alignPoints r2.1 r2.2
    ∀ z ∈ r3.1.submobjects.zip r3.2.submobjects,
      z.1.submobjects = [] ∧ z.2.submobjects = [] ∧ z.1.points ≠ [] ∧ z.2.points ≠ [] := by
  intro r2 r3 z hz
  have hsub1 : r3.1.submobjects = r2.1.submobjects := alignPoints_fst_submobjects _ _
  have hsub2 : r3.2.submobjects = r2.2.submobjects := alignPoints_snd_submobjects _ _
  by_cases h1 : x.points.length = 0 ∧ y.points.length ≠ 0
  · -- y pushes its geometry down; x gains one fresh point mobject
    have hnpa : nullPointAlign x y = (x, pushSelfIntoSubmobjects y) := by
      unfold nullPointAlign
      rw [if_pos h1]
    have hpsubs : (pushSelfIntoSubmobjects y).submobjects = [Mob.mk y.path y.style []] := by
      unfold pushSelfIntoSubmobjects
      simp only [submobjects_mk]
      rw [hy]
      rfl
    have hasm : r2 = (addSubmobjects x 1, pushSelfIntoSubmobjects y) := by
      show alignSubmobjects (nullPointAlign x y).1 (nullPointAlign x y).2 = _
      rw [hnpa]
      show alignSubmobjects x (pushSelfIntoSubmobjects y) = _
      unfold alignSubmobjects
      rw [if_neg (by rw [hx, hpsubs]; simp), if_pos (by rw [hx, hpsubs]; simp)]
      rw [hx, hpsubs]
      rfl
    have hz1 : r3.1.submobjects = [getPointMobject x] := by
      rw [hsub1, hasm, addSubmobjects_nil_one x hx]
      simp
    have hz2 : r3.2.submobjects = [Mob.mk y.path y.style []] := by
      rw [hsub2, hasm]
      exact hpsubs
    rw [hz1, hz2] at hz
    have hzz : z = (getPointMobject x, Mob.mk y.path y.style []) := by simpa using hz
    rw [hzz]
    refine ⟨getPointMobject_subs x, rfl, getPointMobject_points_ne x, ?_⟩
    show y.path.vertices ≠ []
    intro hcon
    exact h1.2 (length_eq_zero_of_eq_nil _ hcon)
  · by_cases h2 : y.points.length = 0 ∧ x.points.length ≠ 0
    · -- x pushes its geometry down; y gains one fresh point mobject
      have hnpa : nullPointAlign x y = (pushSelfIntoSubmobjects x, y) := by
        unfold nullPointAlign
        rw [if_neg h1, if_pos h2]
      have hpsubs : (pushSelfIntoSubmobjects x).submobjects = [Mob.mk x.path x.style []] := by
        unfold pushSelfIntoSubmobjects
        simp only [submobjects_mk]
        rw [hx]
        rfl
      have hasm : r2 = (pushSelfIntoSubmobjects x, addSubmobjects y 1) := by
        show alignSubmobjects (nullPointAlign x y).1 (nullPointAlign x y).2 = _
        rw [hnpa]
        show alignSubmobjects (pushSelfIntoSubmobjects x) y = _
        unfold alignSubmobjects
        rw [if_neg (by rw [hy, hpsubs]; simp), if_neg (by rw [hy, hpsubs]; simp)]
        rw [hy, hpsubs]
        rfl
      have hz1 : r3.1.submobjects = [Mob.mk x.path x.style []] := by
        rw [hsub1, hasm]
        exact hpsubs
      have hz2 : r3.2.submobjects = [getPointMobject y] := by
        rw [hsub2, hasm]
        show (addSubmobjects y 1).submobjects = _
        rw [addSubmobjects_nil_one y hy]
        simp
      rw [hz1, hz2] at hz
      have hzz : z = (Mob.mk x.path x.style [], getPointMobject y) := by simpa using hz
      rw [hzz]
      refine ⟨rfl, getPointMobject_subs y, ?_, getPointMobject_points_ne y⟩
      show x.path.vertices ≠ []
      intro hcon
      exact h2.2 (length_eq_zero_of_eq_nil _ hcon)
    · -- no push: both sides keep their (empty) child lists
      have hnpa : nullPointAlign x y = (x, y) := by
        unfold nullPointAlign
        rw [if_neg h1, if_neg h2]
      have hasm : r2 = (x, y) := by
        show alignSubmobjects (nullPointAlign x y).1 (nullPointAlign x y).2 = _
        rw [hnpa]
        show alignSubmobjects x y = _
        exact alignSubmobjects_of_eq x y (by rw [hx, hy])
      have hz1 : r3.1.submobjects = [] := by
        rw [hsub1, hasm]
        exact hx
      rw [hz1] at hz
      simp at hz

/-! ## Structural congruence and fixed-point helpers -/

theorem sameShape_subs (x y : Mob) :
    sameShape x y =
      ((x.submobjects.length == y.submobjects.length) &&
        sameShapeList x.submobjects y.submobjects) := by
  cases x
  cases y
  simp [sameShape]

theorem sameShapeList_of_pairs :
    ∀ (l1 l2 : List Mob), (∀ z ∈ l1.zip l2, sameShape z.1 z.2 = true) →
      sameShapeList l1 l2 = true
  | [], _, _ => by simp [sameShapeList]
  | _ :: _, [], _ => by simp [sameShapeList]
  | x :: xs, y :: ys, h => by
    have h1 : sameShape x y = true := h (x, y) (by simp)
    have h2 : sameShapeList xs ys = true :=
      sameShapeList_of_pairs xs ys (fun z hz => h z (by simp [hz]))
    simp [sameShapeList, h1, h2]

theorem FixPair_iff (x y : Mob) :
    FixPair x y ↔
      (nullPointAlign x y = (x, y) ∧ alignSubmobjects x y = (x, y) ∧
       alignPoints x y = (x, y) ∧
       x.submobjects.length = y.submobjects.length ∧
       FixList x.submobjects y.submobjects) := by
  cases x
  cases y
  rw [FixPair]
  simp

theorem FixList_nil_left (l : List Mob) : FixList [] l := by
  rw [FixList]
  trivial

theorem FixList_mem_zip :
    ∀ (xs ys : List Mob), FixList xs ys → ∀ z ∈ xs.zip ys, FixPair z.1 z.2
  | [], _, _, z, hz => by simp at hz
  | _ :: _, [], _, z, hz => by simp at hz
  | x :: xs, y :: ys, h, z, hz => by
    rw [FixList] at h
    simp only [List.zip_cons_cons] at hz
    rcases List.mem_cons.mp hz with h2 | h2
    · rw [h2]
      exact h.1
    · exact FixList_mem_zip xs ys h.2 z h2

theorem FixList_of_pairs :
    ∀ (l1 l2 : List Mob), (∀ z ∈ l1.zip l2, FixPair z.1 z.2) → FixList l1 l2
  | [], l2, _ => FixList_nil_left l2
  | _ :: _, [], _ => by
    rw [FixList]
    trivial
  | x :: xs, y :: ys, h => by
    rw [FixList]
    exact ⟨h (x, y) (by simp), FixList_of_pairs xs ys (fun z hz => h z (by simp [hz]))⟩

/-- Building a fixed pair out of an `alignPoints` output with replaced
children: the stage-identity conditions only depend on the point counts, the
child counts and the path pair being `alignPoints`-stable. -/
theorem fixPair_construct (u v : Mob) (L1 L2 : List Mob)
    (hlen : L1.length = L2.length)
    (hpts : u.points.length = v.points.length ∨ (1 ≤ u.points.length ∧ 1 ≤ v.points.length))
    (hfixp : ∀ c2 : Vec, alignPointsPaths u.path v.path c2 = (u.path, v.path))
    (hlist : FixList L1 L2) :
    FixPair (u.withSubmobjects L1) (v.withSubmobjects L2) := by
  rw [FixPair_iff]
  refine ⟨?_, ?_, ?_, by simpa, by simpa⟩
  · apply nullPointAlign_of_counts
    simpa using hpts
  · apply alignSubmobjects_of_eq
    simpa using hlen
  · rw [alignPoints_eq]
    have h1 : (u.withSubmobjects L1).path = u.path := withSubmobjects_path u L1
    have h2 : (v.withSubmobjects L2).path = v.path := withSubmobjects_path v L2
    rw [h1, h2, hfixp _, ← h1, ← h2, withPath_self, withPath_self]

theorem alignDataF_succ (f : ℕ) (x y : Mob) :
    alignDataF (f + 1) x y =
      (let r2 := alignSubmobjects (nullPointAlign x y).1 (nullPointAlign x y).2
       let r3 := alignPoints r2.1 r2.2
       let aligned := (r3.1.submobjects.zip r3.2.submobjects).map (fun z => alignDataF f z.1 z.2)
       (r3.1.withSubmobjects (aligned.map Prod.fst),
        r3.2.withSubmobjects (aligned.map Prod.snd))) := rfl

theorem zip_of_maps {α β : Type} (l : List (α × β)) :
    (l.map Prod.fst).zip (l.map Prod.snd) = l := by
  rw [List.zip_map']
  simp

/-- With one unit of fuel, two point-bearing leaves keep their (empty) child
lists and only have their points aligned. -/
theorem alignDataF_one_leaves (a b : Mob) (ha : a.submobjects = [])
    (hb : b.submobjects = []) (hpa : a.points ≠ []) (hpb : b.points ≠ []) :
    alignDataF 1 a b =
      ((alignPoints a b).1.withSubmobjects [], (alignPoints a b).2.withSubmobjects []) := by
  have hpa1 : 1 ≤ a.points.length := List.length_pos.mpr hpa
  have hpb1 : 1 ≤ b.points.length := List.length_pos.mpr hpb
  have hnpa : nullPointAlign a b = (a, b) :=
    nullPointAlign_of_counts a b (Or.inr ⟨hpa1, hpb1⟩)
  have hasm : alignSubmobjects a b = (a, b) :=
    alignSubmobjects_of_eq a b (by rw [ha, hb])
  have hsub1 : (alignPoints a b).1.submobjects = [] := by
    rw [alignPoints_fst_submobjects]
    exact ha
  rw [alignDataF_succ]
  simp only [hnpa, hasm, hsub1]
  simp

theorem sameShape_alignDataF_one (a b : Mob) (ha : a.submobjects = [])
    (hb : b.submobjects = []) (hpa : a.points ≠ []) (hpb : b.points ≠ []) :
    sameShape (alignDataF 1 a b).1 (alignDataF 1 a b).2 = true := by
  rw [alignDataF_one_leaves a b ha hb hpa hpb]
  rw [sameShape_subs]
  simp [sameShapeList]

theorem fixPair_alignDataF_one (a b : Mob) (ha : a.submobjects = [])
    (hb : b.submobjects = []) (hpa : a.points ≠ []) (hpb : b.points ≠ []) :
    FixPair (alignDataF 1 a b).1 (alignDataF 1 a b).2 := by
  rw [alignDataF_one_leaves a b ha hb hpa hpb]
  have e1 : (alignPoints a b).1.points =
      (alignPointsPaths a.path b.path (getPixelCenter a)).1.vertices := by
    rw [alignPoints_eq]
    simp
  have e2 : (alignPoints a b).2.points =
      (alignPointsPaths a.path b.path (getPixelCenter a)).2.vertices := by
    rw [alignPoints_eq]
    simp
  have e3 : (alignPoints a b).1.path =
      (alignPointsPaths a.path b.path (getPixelCenter a)).1 := by
    rw [alignPoints_eq]
    simp
  have e4 : (alignPoints a b).2.path =
      (alignPointsPaths a.path b.path (getPixelCenter a)).2 := by
    rw [alignPoints_eq]
    simp
  apply fixPair_construct
  · rfl
  · rw [e1, e2]
    rcases alignPointsPaths_out a.path b.path (getPixelCenter a) with h | ⟨h1, h2⟩ | ⟨h1, h2⟩
    · left
      exact h
    · right
      rw [h1]
      exact ⟨by simp, by omega⟩
    · right
      rw [h1]
      exact ⟨by omega, by simp⟩
  · intro c2
    rw [e3, e4]
    exact alignPointsPaths_fix _ _ _ c2
  · exact FixList_nil_left []

/-- Main induction for structural congruence: with fuel two above the depth
bound, `alignData`'s recursion equalises child counts at every level. -/
theorem alignDataF_sameShape :
    ∀ (f : ℕ) (x y : Mob), max (Mob.depth x) (Mob.depth y) ≤ f →
      sameShape (alignDataF (f + 2) x y).1 (alignDataF (f + 2) x y).2 = true := by
  intro f
  induction f with
  | zero =>
    intro x y hf
    have hx : x.submobjects = [] := subs_of_depth_zero x (by omega)
    have hy : y.submobjects = [] := subs_of_depth_zero y (by omega)
    have hchar := steps_leaf_char x y hx hy
    simp only [] at hchar
    rw [show (0 + 2 : ℕ) = 1 + 1 from rfl, alignDataF_succ]
    simp only []
    rw [sameShape_subs]
    simp only [withSubmobjects_submobjects]
    rw [Bool.and_eq_true]
    refine ⟨by simp, ?_⟩
    apply sameShapeList_of_pairs
    intro z hz
    rw [zip_of_maps] at hz
    rcases List.mem_map.mp hz with ⟨⟨w1, w2⟩, hw, hzw⟩
    rw [← hzw]
    rcases hchar (w1, w2) hw with ⟨hw1, hw2, hw3, hw4⟩
    exact sameShape_alignDataF_one w1 w2 hw1 hw2 hw3 hw4
  | succ g ih =>
    intro x y hf
    have hsf := steps_facts x y
    simp only [] at hsf
    have h0 : g + 1 + 2 = (g + 2) + 1 := rfl
    rw [h0, alignDataF_succ]
    simp only []
    rw [sameShape_subs]
    simp only [withSubmobjects_submobjects]
    rw [Bool.and_eq_true]
    refine ⟨by simp, ?_⟩
    apply sameShapeList_of_pairs
    intro z hz
    rw [zip_of_maps] at hz
    rcases List.mem_map.mp hz with ⟨⟨w1, w2⟩, hw, hzw⟩
    rw [← hzw]
    have hm := List.of_mem_zip hw
    have hb1 := hsf.2.1 w1 hm.1
    have hb2 := hsf.2.2.1 w2 hm.2
    exact ih w1 w2 (by omega)

/-- Main induction for idempotence: the pair produced by a fuelled alignment
is a fixed point of every alignment stage, at every level. -/
theorem alignDataF_fix :
    ∀ (f : ℕ) (x y : Mob), max (Mob.depth x) (Mob.depth y) ≤ f →
      FixPair (alignDataF (f + 2) x y).1 (alignDataF (f + 2) x y).2 := by
  intro f
  induction f with
  | zero =>
    intro x y hf
    have hx : x.submobjects = [] := subs_of_depth_zero x (by omega)
    have hy : y.submobjects = [] := subs_of_depth_zero y (by omega)
    have hchar := steps_leaf_char x y hx hy
    simp only [] at hchar
    have hsf := steps_facts x y
    simp only [] at hsf
    rw [show (0 + 2 : ℕ) = 1 + 1 from rfl, alignDataF_succ]
    simp only []
    apply fixPair_construct
    · simp
    · exact hsf.2.2.2.1
    · exact hsf.2.2.2.2
    · apply FixList_of_pairs
      intro z hz
      rw [zip_of_maps] at hz
      rcases List.mem_map.mp hz with ⟨⟨w1, w2⟩, hw, hzw⟩
      rw [← hzw]
      rcases hchar (w1, w2) hw with ⟨hw1, hw2, hw3, hw4⟩
      exact fixPair_alignDataF_one w1 w2 hw1 hw2 hw3 hw4
  | succ g ih =>
    intro x y hf
    have hsf := steps_facts x y
    simp only [] at hsf
    have h0 : g + 1 + 2 = (g + 2) + 1 := rfl
    rw [h0, alignDataF_succ]
    simp only []
    apply fixPair_construct
    · simp
    · exact hsf.2.2.2.1
    · exact hsf.2.2.2.2
    · apply FixList_of_pairs
      intro z hz
      rw [zip_of_maps] at hz
      rcases List.mem_map.mp hz with ⟨⟨w1, w2⟩, hw, hzw⟩
      rw [← hzw]
      have hm := List.of_mem_zip hw
      have hb1 := hsf.2.1 w1 hm.1
      have hb2 := hsf.2.2.1 w2 hm.2
      exact ih w1 w2 (by omega)

/-- On a pair that is already a fixed point of all three stages, the alignment
recursion changes nothing, whatever the fuel. -/
theorem alignDataF_of_fix :
    ∀ (f : ℕ) (x y : Mob), FixPair x y → alignDataF f x y = (x, y)
  | 0, _, _, _ => rfl
  | f + 1, x, y, hfix => by
    obtain ⟨h1, h2, h3, hlen, hlist⟩ := (FixPair_iff x y).mp hfix
    have e2 : alignSubmobjects (nullPointAlign x y).1 (nullPointAlign x y).2 = (x, y) := by
      rw [h1]
      exact h2
    have e3 :
        alignPoints (alignSubmobjects (nullPointAlign x y).1 (nullPointAlign x y).2).1
          (alignSubmobjects (nullPointAlign x y).1 (nullPointAlign x y).2).2 = (x, y) := by
      rw [e2]
      exact h3
    have hmap : (x.submobjects.zip y.submobjects).map (fun z => alignDataF f z.1 z.2)
        = x.submobjects.zip y.submobjects := by
      have hid : ∀ z ∈ x.submobjects.zip y.submobjects, alignDataF f z.1 z.2 = z := by
        intro z hz
        have hfz := FixList_mem_zip x.submobjects y.submobjects hlist z hz
        rw [alignDataF_of_fix f z.1 z.2 hfz]
      calc (x.submobjects.zip y.submobjects).map (fun z => alignDataF f z.1 z.2)
          = (x.submobjects.zip y.submobjects).map id := List.map_congr_left hid
        _ = x.submobjects.zip y.submobjects := List.map_id _
    rw [alignDataF_succ]
    simp only [e3, hmap]
    rw [List.map_fst_zip _ _ (le_of_eq hlen), List.map_snd_zip _ _ (le_of_eq hlen.symm)]
    rw [withSubmobjects_self, withSubmobjects_self]

/-- C1: after `alignData(x, y)` the two trees have equally many submobjects at
every level, and at each level the recursion into child pairs happens only
after the three alignment stages have already made the current level's counts
equal. -/
theorem claim_C1 (x y : Mob) :
    ((alignData x y).1.submobjects.length = (alignData x y).2.submobjects.length ∧
      sameShape (alignData x y).1 (alignData x y).2 = true) ∧
    (alignPoints (alignSubmobjects (nullPointAlign x y).1 (nullPointAlign x y).2).1
        (alignSubmobjects (nullPointAlign x y).1 (nullPointAlign x y).2).2).1.submobjects.length =
      (alignPoints (alignSubmobjects (nullPointAlign x y).1 (nullPointAlign x y).2).1
        (alignSubmobjects (nullPointAlign x y).1 (nullPointAlign x y).2).2).2.submobjects.length := by
  have hshape : sameShape (alignData x y).1 (alignData x y).2 = true := by
    unfold alignData
    exact alignDataF_sameShape (max (Mob.depth x) (Mob.depth y)) x y le_rfl
  refine ⟨⟨?_, hshape⟩, ?_⟩
  · have h := hshape
    rw [sameShape_subs, Bool.and_eq_true] at h
    simpa using h.1
  · have h := steps_facts x y
    simp only [] at h
    exact h.1

/-- C3: alignment is idempotent — running `alignData` again on an already
aligned pair returns that pair unchanged, so no submobject is added, no path
gains points and no geometry is pushed down on the second run. -/
theorem claim_C3 (x y : Mob) :
    alignData (alignData x y).1 (alignData x y).2 = alignData x y := by
  have hfix := alignDataF_fix (max (Mob.depth x) (Mob.depth y)) x y le_rfl
  unfold alignData at *
  rw [alignDataF_of_fix _ _ _ hfix]

end EulerV2
